import Mathlib

set_option maxRecDepth 8000

/-!
Shallow embedding of the `rot` IRC counter bot.

The development models the three core components of the program:
the durable counter store (`rotdb.rs`), the command matcher over free
text (`line_parse.rs`), and the session tokenizer plus keepalive state
machine (`irc_client.rs`).  Rust `i64` values are modelled as `Int`,
with `i64` arithmetic wrapping two's-complement style at the type's
boundary (release-mode Rust semantics; a debug build aborts there
instead of producing a value) and with the range check of
`i64::from_str` made explicit; the `HashMap` is modelled as an
association list, and file and socket effects are modelled by passing
the affected state explicitly.
-/

/-! ## Key normalization (`rotdb.rs`, `normalize_key`) -/

/-- Model of the regex rewrite `RE_SEPS.replace_all(key, ".")` with
`RE_SEPS = (::|->)`: scan left to right, replacing each occurrence of
`::` or `->` by a single `.`. -/
def replaceSeps : List Char → List Char
  | ':' :: ':' :: rest => '.' :: replaceSeps rest
  | '-' :: '>' :: rest => '.' :: replaceSeps rest
  | c :: rest => c :: replaceSeps rest
  | [] => []

/-- Model of `char::to_ascii_lowercase`: `A`..`Z` shift by 32, everything
else is unchanged. -/
def lowerAscii (c : Char) : Char :=
  if 65 ≤ c.toNat ∧ c.toNat ≤ 90 then Char.ofNat (c.toNat + 32) else c

/-- Model of `normalize_key`: rewrite the separators, then ASCII
lower-case the whole key. -/
def normalize_key (k : String) : String :=
  String.mk ((replaceSeps k.data).map lowerAscii)

/-! ## The counter store (`rotdb.rs`, `RotDb`) -/

/-- Model of `RotDb`.  The `HashMap<String, i64>` is modelled as an
association list; iteration order of the map is modelled by list order. -/
structure RotDb where
  filename : String
  values : List (String × Int)
  dirty : Bool

/-- Model of `HashMap::get` on the association list. -/
def lookupKV (k : String) : List (String × Int) → Option Int
  | [] => none
  | (k', v) :: rest => if k' = k then some v else lookupKV k rest

/-- Overwrite the value stored at an existing key, keeping list order. -/
def updateKV (k : String) (v : Int) : List (String × Int) → List (String × Int)
  | [] => []
  | (k', v') :: rest => if k' = k then (k', v) :: rest else (k', v') :: updateKV k v rest

/-- Model of a `HashMap` insertion: overwrite if the key is present,
append otherwise. -/
def insertKV (m : List (String × Int)) (k : String) (v : Int) : List (String × Int) :=
  match lookupKV k m with
  | some _ => updateKV k v m
  | none => m ++ [(k, v)]

/-- Model of `RotDb::value`: look up the normalized key, defaulting to 0.
It takes `&self` in the source, so it is a pure function here. -/
def RotDb.value (db : RotDb) (key : String) : Int :=
  match lookupKV (normalize_key key) db.values with
  | some v => v
  | none => 0

/-- Two's-complement wrap into the `i64` range, the release-mode result
of Rust `i64` addition and subtraction at the type's boundary (a debug
build aborts there instead). -/
def wrapI64 (x : Int) : Int := (x + 2 ^ 63) % 2 ^ 64 - 2 ^ 63

/-- Model of `RotDb::increment`: `entry(..).and_modify(|v| *v += 1).or_insert(1)`
with the dirty flag set first.  Returns the post-mutation value and the
new store; `*v += 1` on `i64` wraps at `i64::MAX`. -/
def RotDb.increment (db : RotDb) (key : String) : Int × RotDb :=
  let nk := normalize_key key
  match lookupKV nk db.values with
  | some v => (wrapI64 (v + 1),
      { db with values := updateKV nk (wrapI64 (v + 1)) db.values, dirty := true })
  | none => (1, { db with values := db.values ++ [(nk, 1)], dirty := true })

/-- Model of `RotDb::decrement`: `entry(..).and_modify(|v| *v -= 1).or_insert(-1)`
with the dirty flag set first; `*v -= 1` on `i64` wraps at `i64::MIN`. -/
def RotDb.decrement (db : RotDb) (key : String) : Int × RotDb :=
  let nk := normalize_key key
  match lookupKV nk db.values with
  | some v => (wrapI64 (v - 1),
      { db with values := updateKV nk (wrapI64 (v - 1)) db.values, dirty := true })
  | none => (-1, { db with values := db.values ++ [(nk, -1)], dirty := true })

/-! ## Decimal rendering and `i64` parsing

`sync` renders each value with `write!("{}", val)` and `parse_zot_db`
reads it back with `i64::from_str`; both are standard-library routines,
modelled here by explicit decimal digit functions. -/

/-- Little-endian decimal digits of `n`; the fuel argument makes the
definition structural, `fuel = n` is always enough. -/
def digitsF : Nat → Nat → List Nat
  | 0, _ => []
  | fuel + 1, n => if n = 0 then [] else n % 10 :: digitsF fuel (n / 10)

/-- The character of one decimal digit. -/
def digitChar (d : Nat) : Char := Char.ofNat (48 + d)

/-- Model of Rust decimal formatting of a natural number. -/
def renderNat (n : Nat) : List Char :=
  if n = 0 then ['0'] else ((digitsF n n).map digitChar).reverse

/-- Model of Rust `{}` formatting of an `i64`: a `-` sign for negative
values, then the decimal digits with no leading zeros. -/
def renderInt (v : Int) : List Char :=
  if v < 0 then '-' :: renderNat v.natAbs else renderNat v.natAbs

/-- ASCII decimal digit test. -/
def isDigitChar (c : Char) : Bool := 48 ≤ c.toNat && c.toNat ≤ 57

/-- Value of a big-endian run of decimal digit characters. -/
def digitsVal (l : List Char) : Nat := l.foldl (fun a c => 10 * a + (c.toNat - 48)) 0

/-- Model of the digit-run part of `i64::from_str`: one or more decimal
digits and nothing else. -/
def parseDigits (l : List Char) : Option Nat :=
  if l ≠ [] ∧ l.all isDigitChar then some (digitsVal l) else none

/-- The `i64` range. -/
def inI64 (v : Int) : Prop := -(2 ^ 63) ≤ v ∧ v ≤ 2 ^ 63 - 1

instance (v : Int) : Decidable (inI64 v) := by
  unfold inI64
  infer_instance

/-- Model of `i64::from_str`: an optional sign, a digit run, and the
`i64` range check. -/
def parseI64 (l : List Char) : Option Int :=
  match l with
  | '-' :: rest => (parseDigits rest).bind fun n => if n ≤ 2 ^ 63 then some (-(n : Int)) else none
  | '+' :: rest => (parseDigits rest).bind fun n => if (n : Int) ≤ 2 ^ 63 - 1 then some (n : Int) else none
  | _ => (parseDigits l).bind fun n => if (n : Int) ≤ 2 ^ 63 - 1 then some (n : Int) else none

/-! ## File content and `parse_zot_db` (`rotdb.rs`) -/

/-- Split file content at each `\n`, the delimiter itself dropped; a
final segment without a delimiter is kept, and content ending exactly at
a delimiter produces no empty final segment. -/
def splitNl : List Char → List (List Char)
  | [] => []
  | c :: rest =>
    if c = '\n' then [] :: splitNl rest
    else
      match splitNl rest with
      | [] => [[c]]
      | h :: t => (c :: h) :: t

/-- Drop one trailing `\r`, as `BufRead::lines` does for a `\r\n` pair. -/
def stripCr (s : List Char) : List Char :=
  if s.getLast? = some '\r' then s.dropLast else s

/-- Model of `BufReader::lines` over explicit content: every
`\n`-terminated line loses a trailing `\r`; a final unterminated line is
returned as read. -/
def linesRust (l : List Char) : List (List Char) :=
  let segs := splitNl l
  if l.getLast? = some '\n' then segs.map stripCr
  else segs.dropLast.map stripCr ++ segs.drop (segs.length - 1)

/-- Model of `text.splitn(2, ':')` together with the arity check in
`parse_zot_db`: the part before the first `:` and the part after it, or
`none` when the line has no `:` at all. -/
def splitColon (l : List Char) : Option (List Char × List Char) :=
  match l.dropWhile (· ≠ ':') with
  | ':' :: rest => some (l.takeWhile (· ≠ ':'), rest)
  | _ => none

/-- One line of `parse_zot_db`; malformed lines produce `none` and are
skipped by the caller. -/
def parseDbLine (l : List Char) : Option (String × Int) :=
  match splitColon l with
  | none => none
  | some (k, rest) => (parseI64 rest).map fun v => (String.mk k, v)

/-- Model of collecting an iterator of pairs into a `HashMap`: pairs are
inserted left to right, later pairs overwriting earlier ones. -/
def collectKV (ps : List (String × Int)) : List (String × Int) :=
  ps.foldl (fun m p => insertKV m p.1 p.2) []

/-- Model of `parse_zot_db` applied to file content that was read
successfully. -/
def parse_zot_db (content : List Char) : List (String × Int) :=
  collectKV ((linesRust content).filterMap parseDbLine)

/-- Model of `RotDb::new`: the file system is passed explicitly; `none`
models a file that could not be opened (the `Err` branch).  Both
branches produce `dirty := false`. -/
def RotDb.new (filename : String) (content : Option (List Char)) : RotDb :=
  match content with
  | some text => { filename := filename, values := parse_zot_db text, dirty := false }
  | none => { filename := filename, values := [], dirty := false }

/-! ## `RotDb::sync` with explicit I/O outcomes -/

/-- The bytes `writeln!(stream, "{}:{}", key, val)` emits for one entry. -/
def entryLine (p : String × Int) : List Char :=
  p.1.data ++ ':' :: (renderInt p.2 ++ ['\n'])

/-- The full serialized content for a list of entries. -/
def linesContent (ps : List (String × Int)) : List Char :=
  (ps.map entryLine).flatten

/-- The write loop of `RotDb::sync`: entries are written one `writeln!`
at a time until `writeOk` reports a failure; the boolean result records
whether every write succeeded. -/
def writeLoop (ps : List (String × Int)) (writeOk : Nat → Bool) (i : Nat) (acc : List Char) :
    List Char × Bool :=
  match ps with
  | [] => (acc, true)
  | p :: rest =>
    if writeOk i then writeLoop rest writeOk (i + 1) (acc ++ entryLine p) else (acc, false)

/-- Model of `RotDb::sync` against an explicit file-system cell `fs`
holding the content of the backing file (`none` = file absent).  A
non-dirty store returns at once.  `File::create` truncates the file in
place on success, so a failing write leaves exactly the entries written
so far on disk; only a fully successful pass clears the dirty flag. -/
def RotDb.sync (db : RotDb) (openOk : Bool) (writeOk : Nat → Bool) (fs : Option (List Char)) :
    RotDb × Option (List Char) :=
  if db.dirty = false then (db, fs)
  else if openOk = false then (db, fs)
  else
    match writeLoop db.values writeOk 0 [] with
    | (content, true) => ({ db with dirty := false }, some content)
    | (content, false) => (db, some content)

/-- A mutation request: `true` is an increment, `false` a decrement,
paired with the raw key text. -/
def applyMut (db : RotDb) (m : Bool × String) : RotDb :=
  if m.1 then (db.increment m.2).2 else (db.decrement m.2).2

/-- A sequence of increment/decrement mutations applied in order. -/
def applyMuts (db : RotDb) (ms : List (Bool × String)) : RotDb :=
  ms.foldl applyMut db

/-! ## Helper lemmas: characters and normalization -/

theorem char_toNat_lt (c : Char) : c.toNat < 1114112 := by
  have h := c.valid
  simp only [UInt32.isValidChar, Nat.isValidChar] at h
  simp only [Char.toNat]
  omega

theorem ofNat_toNat (n : Nat) (h : Nat.isValidChar n) : (Char.ofNat n).toNat = n := by
  simp only [Char.ofNat, h, dif_pos, Char.ofNatAux, Char.toNat]
  have h2 : n < 2 ^ 32 := by
    rcases h with h | h
    · omega
    · omega
  simp [UInt32.toNat, UInt32.ofNat', Nat.mod_eq_of_lt h2]

theorem lowerAscii_toNat_of_upper (c : Char) (h : 65 ≤ c.toNat ∧ c.toNat ≤ 90) :
    (lowerAscii c).toNat = c.toNat + 32 := by
  have hv : Nat.isValidChar (c.toNat + 32) := by
    left
    omega
  simp [lowerAscii, h, ofNat_toNat _ hv]

theorem lowerAscii_idem (c : Char) : lowerAscii (lowerAscii c) = lowerAscii c := by
  by_cases h : 65 ≤ c.toNat ∧ c.toNat ≤ 90
  · have ht := lowerAscii_toNat_of_upper c h
    have hnot : ¬(65 ≤ (lowerAscii c).toNat ∧ (lowerAscii c).toNat ≤ 90) := by
      omega
    rw [lowerAscii, if_neg hnot]
  · have hc : lowerAscii c = c := by
      rw [lowerAscii, if_neg h]
    rw [hc]
    exact hc

theorem lowerAscii_fix (c t : Char) (ht : t.toNat < 97) (h : lowerAscii c = t) : c = t := by
  by_cases hc : 65 ≤ c.toNat ∧ c.toNat ≤ 90
  · have := lowerAscii_toNat_of_upper c hc
    rw [h] at this
    omega
  · simpa [lowerAscii, hc] using h

/-- Whether the list contains an occurrence of `::` or `->`. -/
def hasSepPair : List Char → Bool
  | ':' :: ':' :: _ => true
  | '-' :: '>' :: _ => true
  | _ :: rest => hasSepPair rest
  | [] => false

theorem replaceSeps_eq_self (l : List Char) (h : hasSepPair l = false) :
    replaceSeps l = l := by
  induction l using replaceSeps.induct with
  | case1 rest ih => simp [hasSepPair] at h
  | case2 rest ih => simp [hasSepPair] at h
  | case3 c rest h1 h2 ih =>
    rw [hasSepPair.eq_3 c rest h1 h2] at h
    rw [replaceSeps.eq_3 c rest h1 h2, ih h]
  | case4 => rfl

theorem replaceSeps_head (l : List Char) :
    (replaceSeps l).head? = l.head? ∨ (replaceSeps l).head? = some '.' := by
  induction l using replaceSeps.induct with
  | case1 rest ih => right; rw [replaceSeps.eq_1]; rfl
  | case2 rest ih => right; rw [replaceSeps.eq_2]; rfl
  | case3 c rest h1 h2 ih => left; rw [replaceSeps.eq_3 c rest h1 h2]; rfl
  | case4 => left; rfl

theorem hasSepPair_replaceSeps (l : List Char) : hasSepPair (replaceSeps l) = false := by
  induction l using replaceSeps.induct with
  | case1 rest ih =>
    rw [replaceSeps.eq_1, hasSepPair.eq_3]
    · exact ih
    · intro r hc _
      exact absurd hc (by decide)
    · intro r hc _
      exact absurd hc (by decide)
  | case2 rest ih =>
    rw [replaceSeps.eq_2, hasSepPair.eq_3]
    · exact ih
    · intro r hc _
      exact absurd hc (by decide)
    · intro r hc _
      exact absurd hc (by decide)
  | case3 c rest h1 h2 ih =>
    rw [replaceSeps.eq_3 c rest h1 h2, hasSepPair.eq_3]
    · exact ih
    · intro r hc hr
      rcases replaceSeps_head rest with hh | hh
      · rw [hr] at hh
        cases rest with
        | nil => simp at hh
        | cons d t =>
          simp only [List.head?] at hh
          have hd : d = ':' := by
            injection hh.symm
          exact h1 t hc (by rw [hd])
      · rw [hr] at hh
        simp at hh
    · intro r hc hr
      rcases replaceSeps_head rest with hh | hh
      · rw [hr] at hh
        cases rest with
        | nil => simp at hh
        | cons d t =>
          simp only [List.head?] at hh
          have hd : d = '>' := by
            injection hh.symm
          exact h2 t hc (by rw [hd])
      · rw [hr] at hh
        simp at hh
  | case4 => rfl

theorem hasSepPair_map_lower (l : List Char) (h : hasSepPair l = false) :
    hasSepPair (l.map lowerAscii) = false := by
  induction l using hasSepPair.induct with
  | case1 rest => simp [hasSepPair] at h
  | case2 rest => simp [hasSepPair] at h
  | case3 c rest h1 h2 ih =>
    rw [hasSepPair.eq_3 c rest h1 h2] at h
    simp only [List.map]
    rw [hasSepPair.eq_3]
    · exact ih h
    · intro r hc hr
      have hcc : c = ':' := lowerAscii_fix c ':' (by decide) hc
      cases rest with
      | nil => simp at hr
      | cons d t =>
        simp only [List.map, List.cons.injEq] at hr
        have hd : d = ':' := lowerAscii_fix d ':' (by decide) hr.1
        exact h1 t hcc (by rw [hd])
    · intro r hc hr
      have hcc : c = '-' := lowerAscii_fix c '-' (by decide) hc
      cases rest with
      | nil => simp at hr
      | cons d t =>
        simp only [List.map, List.cons.injEq] at hr
        have hd : d = '>' := lowerAscii_fix d '>' (by decide) hr.1
        exact h2 t hcc (by rw [hd])
  | case4 => rfl

theorem normalize_key_idem (k : String) :
    normalize_key (normalize_key k) = normalize_key k := by
  unfold normalize_key
  have h1 : hasSepPair ((replaceSeps k.data).map lowerAscii) = false :=
    hasSepPair_map_lower _ (hasSepPair_replaceSeps k.data)
  have h2 : (String.mk ((replaceSeps k.data).map lowerAscii)).data
      = (replaceSeps k.data).map lowerAscii := rfl
  rw [h2, replaceSeps_eq_self _ h1, List.map_map]
  have h3 : lowerAscii ∘ lowerAscii = lowerAscii := funext lowerAscii_idem
  rw [h3]

/-! ## Store operation lemmas -/

theorem lookupKV_updateKV_self (k : String) (v : Int) (m : List (String × Int))
    (h : (lookupKV k m).isSome) : lookupKV k (updateKV k v m) = some v := by
  induction m with
  | nil => simp [lookupKV] at h
  | cons p rest ih =>
    obtain ⟨k', v'⟩ := p
    by_cases hk : k' = k
    · simp [updateKV, lookupKV, hk]
    · simp only [updateKV, lookupKV, hk, if_false, if_neg hk]
      simp only [lookupKV, if_neg hk] at h
      exact ih h

theorem lookupKV_append_self (k : String) (v : Int) (m : List (String × Int))
    (h : lookupKV k m = none) : lookupKV k (m ++ [(k, v)]) = some v := by
  induction m with
  | nil => simp [lookupKV]
  | cons p rest ih =>
    obtain ⟨k', v'⟩ := p
    by_cases hk : k' = k
    · simp [lookupKV, hk] at h
    · simp only [List.cons_append, lookupKV, if_neg hk] at h ⊢
      exact ih h

theorem wrapI64_eq_self (x : Int) (h : inI64 x) : wrapI64 x = x := by
  unfold wrapI64
  unfold inI64 at h
  omega

theorem increment_ret (db : RotDb) (k : String) :
    (db.increment k).1 = wrapI64 (db.value k + 1) := by
  unfold RotDb.increment RotDb.value
  cases h : lookupKV (normalize_key k) db.values with
  | none =>
    simp only [h]
    decide
  | some v => simp [h]

theorem increment_dirty (db : RotDb) (k : String) :
    (db.increment k).2.dirty = true := by
  unfold RotDb.increment
  cases h : lookupKV (normalize_key k) db.values <;> simp [h]

theorem value_increment (db : RotDb) (k : String) :
    (db.increment k).2.value k = wrapI64 (db.value k + 1) := by
  unfold RotDb.increment RotDb.value
  cases h : lookupKV (normalize_key k) db.values with
  | none =>
    simp only [h, lookupKV_append_self _ 1 _ h]
    decide
  | some v =>
    have hs : (lookupKV (normalize_key k) db.values).isSome := by
      rw [h]; rfl
    simp [h, lookupKV_updateKV_self _ (wrapI64 (v + 1)) _ hs]

theorem decrement_ret (db : RotDb) (k : String) :
    (db.decrement k).1 = wrapI64 (db.value k - 1) := by
  unfold RotDb.decrement RotDb.value
  cases h : lookupKV (normalize_key k) db.values with
  | none =>
    simp only [h]
    decide
  | some v => simp [h]

theorem decrement_dirty (db : RotDb) (k : String) :
    (db.decrement k).2.dirty = true := by
  unfold RotDb.decrement
  cases h : lookupKV (normalize_key k) db.values <;> simp [h]

theorem value_decrement (db : RotDb) (k : String) :
    (db.decrement k).2.value k = wrapI64 (db.value k - 1) := by
  unfold RotDb.decrement RotDb.value
  cases h : lookupKV (normalize_key k) db.values with
  | none =>
    simp only [h, lookupKV_append_self _ (-1) _ h]
    decide
  | some v =>
    have hs : (lookupKV (normalize_key k) db.values).isSome := by
      rw [h]; rfl
    simp [h, lookupKV_updateKV_self _ (wrapI64 (v - 1)) _ hs]

/-! ## Claim C4: normalization is idempotent and case/separator-insensitive -/

/-- C4: key normalization (replace `::` and `->` by `.`, then lower-case)
is idempotent, identifies `Foo::Bar`, `foo.bar` and `FOO->BAR`, and for
every store and key `value(k) = value(normalize(k))`. -/
theorem C4_normalization (k : String) (db : RotDb) :
    normalize_key (normalize_key k) = normalize_key k ∧
    normalize_key "Foo::Bar" = normalize_key "foo.bar" ∧
    normalize_key "foo.bar" = normalize_key "FOO->BAR" ∧
    db.value k = db.value (normalize_key k) := by
  refine ⟨normalize_key_idem k, by decide, by decide, ?_⟩
  unfold RotDb.value
  rw [normalize_key_idem]

/-! ## Claim C5: value / increment / decrement behaviour -/

/-- C5 fails on the code at the `i64` boundary: a store can hold
`i64::MAX` (for example loaded from the file line
`k:9223372036854775807`, which `i64::from_str` accepts), and there
`increment` does not add 1 to the existing value -- `*v += 1` wraps to
`i64::MIN` in a release build (a debug build aborts instead of
returning). -/
theorem C5_counterexample :
    ((RotDb.mk "zot.db" [("k", 2 ^ 63 - 1)] false).increment "k").1 = -(2 ^ 63) ∧
    ((RotDb.mk "zot.db" [("k", 2 ^ 63 - 1)] false).increment "k").1
      ≠ (RotDb.mk "zot.db" [("k", 2 ^ 63 - 1)] false).value "k" + 1 := by
  constructor <;> decide

/-- C5 amended: `value` returns the entry at the normalized key or 0
when absent; `increment`/`decrement` set the dirty flag, and return and
store the old value plus/minus one whenever that result stays inside
the `i64` range (in particular they insert 1 or -1 when the key is
absent, since the absent value reads as 0); at the range boundary the
result wraps two's-complement style, so incrementing `i64::MAX` yields
`i64::MIN` and decrementing `i64::MIN` yields `i64::MAX` (release
semantics; a debug build aborts there); increment followed by decrement
on a fresh key returns 1 then 0. -/
theorem C5_store_ops (db : RotDb) (k : String) :
    db.value k = (lookupKV (normalize_key k) db.values).getD 0 ∧
    (db.increment k).2.dirty = true ∧
    (db.decrement k).2.dirty = true ∧
    (inI64 (db.value k + 1) →
      (db.increment k).1 = db.value k + 1 ∧
      (db.increment k).2.value k = db.value k + 1) ∧
    (inI64 (db.value k - 1) →
      (db.decrement k).1 = db.value k - 1 ∧
      (db.decrement k).2.value k = db.value k - 1) ∧
    (db.value k = 2 ^ 63 - 1 → (db.increment k).1 = -(2 ^ 63)) ∧
    (db.value k = -(2 ^ 63) → (db.decrement k).1 = 2 ^ 63 - 1) ∧
    (db.value k = 0 →
      (db.increment k).1 = 1 ∧ ((db.increment k).2.decrement k).1 = 0) := by
  refine ⟨?_, increment_dirty db k, decrement_dirty db k, ?_, ?_, ?_, ?_, ?_⟩
  · unfold RotDb.value
    cases h : lookupKV (normalize_key k) db.values <;> simp [h]
  · intro hin
    rw [increment_ret, value_increment, wrapI64_eq_self _ hin]
    exact ⟨rfl, rfl⟩
  · intro hin
    rw [decrement_ret, value_decrement, wrapI64_eq_self _ hin]
    exact ⟨rfl, rfl⟩
  · intro h0
    rw [increment_ret, h0]
    decide
  · intro h0
    rw [decrement_ret, h0]
    decide
  · intro h0
    constructor
    · rw [increment_ret, h0]
      decide
    · rw [decrement_ret, value_increment, h0]
      decide

/-- Witness for C5 at a concrete fresh store and key. -/
theorem C5_store_ops_witness :
    (RotDb.mk "zot.db" [] false).value "foo" = 0 ∧
    inI64 ((RotDb.mk "zot.db" [] false).value "foo" + 1) ∧
    ((RotDb.mk "zot.db" [] false).increment "foo").1 = 1 ∧
    (((RotDb.mk "zot.db" [] false).increment "foo").2.decrement "foo").1 = 0 := by
  have h := C5_store_ops (RotDb.mk "zot.db" [] false) "foo"
  have h0 : (RotDb.mk "zot.db" [] false).value "foo" = 0 := by decide
  have hin : inI64 ((RotDb.mk "zot.db" [] false).value "foo" + 1) := by
    rw [h0]
    decide
  exact ⟨h0, hin, (h.2.2.2.2.2.2.2 h0).1, (h.2.2.2.2.2.2.2 h0).2⟩

/-! ## Claim C10: a freshly loaded store is clean and an early flush
writes nothing -/

/-- C10: a store built by `RotDb::new` has `dirty = false` for every file
state (absent, well-formed, or with malformed lines), so a `sync` before
the first mutation performs no write at all and leaves the file content
(including any malformed lines that were skipped at load) unchanged;
the concrete clause shows a malformed line being skipped by the loader. -/
theorem C10_fresh_store (fn : String) (content : Option (List Char)) (openOk : Bool)
    (writeOk : Nat → Bool) (fs : Option (List Char)) :
    (RotDb.new fn content).dirty = false ∧
    (RotDb.new fn content).sync openOk writeOk fs = (RotDb.new fn content, fs) ∧
    parse_zot_db "a:1\nbad\nb:2\n".data = [("a", 1), ("b", 2)] := by
  have hdirty : (RotDb.new fn content).dirty = false := by
    cases content <;> rfl
  refine ⟨hdirty, ?_, by decide⟩
  unfold RotDb.sync
  rw [hdirty]
  simp

/-! ## Decimal round-trip lemmas -/

theorem digitChar_toNat (d : Nat) (h : d < 10) : (digitChar d).toNat = 48 + d := by
  have hv : Nat.isValidChar (48 + d) := by
    left
    omega
  simpa [digitChar] using ofNat_toNat _ hv

theorem digitsF_lt (f n : Nat) : ∀ d ∈ digitsF f n, d < 10 := by
  induction f generalizing n with
  | zero => simp [digitsF]
  | succ f ih =>
    intro d hd
    rw [digitsF] at hd
    by_cases h0 : n = 0
    · simp [h0] at hd
    · rw [if_neg h0] at hd
      rcases List.mem_cons.mp hd with h | h
      · omega
      · exact ih _ d h

theorem digitsF_ne_nil (f n : Nat) (hn : n ≠ 0) (hf : f ≠ 0) : digitsF f n ≠ [] := by
  cases f with
  | zero => exact absurd rfl hf
  | succ f => simp [digitsF, hn]

theorem foldl_digitsF (f : Nat) : ∀ n, n ≤ f →
    List.foldl (fun a d => 10 * a + d) 0 (digitsF f n).reverse = n := by
  induction f with
  | zero =>
    intro n hn
    interval_cases n
    rfl
  | succ f ih =>
    intro n hn
    by_cases h0 : n = 0
    · simp [digitsF, h0]
    · rw [digitsF, if_neg h0]
      rw [List.reverse_cons, List.foldl_append]
      have hdiv : n / 10 ≤ f := by
        have := Nat.div_lt_self (Nat.pos_of_ne_zero h0) (by omega : 1 < 10)
        omega
      rw [ih (n / 10) hdiv]
      simp only [List.foldl_cons, List.foldl_nil]
      omega

theorem digitsVal_map_digitChar (ds : List Nat) (h : ∀ d ∈ ds, d < 10) :
    digitsVal (ds.map digitChar) = List.foldl (fun a d => 10 * a + d) 0 ds := by
  unfold digitsVal
  suffices hgen : ∀ a, List.foldl (fun a c => 10 * a + (c.toNat - 48)) a (ds.map digitChar)
      = List.foldl (fun a d => 10 * a + d) a ds from hgen 0
  induction ds with
  | nil => intro a; rfl
  | cons d ds ih =>
    intro a
    simp only [List.map, List.foldl_cons]
    rw [digitChar_toNat d (h d (List.mem_cons_self d ds))]
    have hr : 48 + d - 48 = d := by omega
    rw [hr]
    exact ih (fun x hx => h x (List.mem_cons_of_mem d hx)) _

theorem renderNat_chars (n : Nat) : ∀ c ∈ renderNat n, 48 ≤ c.toNat ∧ c.toNat ≤ 57 := by
  intro c hc
  unfold renderNat at hc
  by_cases h0 : n = 0
  · rw [if_pos h0] at hc
    simp at hc
    rw [hc]
    decide
  · rw [if_neg h0] at hc
    rw [List.mem_reverse, List.mem_map] at hc
    obtain ⟨d, hd, hdc⟩ := hc
    have hlt := digitsF_lt n n d hd
    rw [← hdc, digitChar_toNat d hlt]
    omega

theorem renderNat_ne_nil (n : Nat) : renderNat n ≠ [] := by
  unfold renderNat
  by_cases h0 : n = 0
  · simp [h0]
  · rw [if_neg h0]
    simp only [ne_eq, List.reverse_eq_nil_iff, List.map_eq_nil_iff]
    exact digitsF_ne_nil n n h0 h0

theorem parseDigits_renderNat (n : Nat) : parseDigits (renderNat n) = some n := by
  unfold parseDigits
  rw [if_pos]
  · congr 1
    unfold renderNat
    by_cases h0 : n = 0
    · rw [if_pos h0, h0]
      rfl
    · rw [if_neg h0, ← List.map_reverse]
      rw [digitsVal_map_digitChar _ (fun d hd => digitsF_lt n n d (List.mem_reverse.mp hd))]
      exact foldl_digitsF n n le_rfl
  · constructor
    · exact renderNat_ne_nil n
    · rw [List.all_eq_true]
      intro c hc
      have := renderNat_chars n c hc
      simp only [isDigitChar, Bool.and_eq_true, decide_eq_true_eq]
      omega

theorem renderNat_all_digits (n : Nat) : (renderNat n).all isDigitChar = true := by
  rw [List.all_eq_true]
  intro c hc
  have := renderNat_chars n c hc
  simp only [isDigitChar, Bool.and_eq_true, decide_eq_true_eq]
  omega

theorem parseI64_digits (l : List Char) (hne : l ≠ []) (hd : l.all isDigitChar = true) :
    parseI64 l = (parseDigits l).bind
      fun n => if (n : Int) ≤ 2 ^ 63 - 1 then some (n : Int) else none := by
  cases l with
  | nil => exact absurd rfl hne
  | cons c cs =>
    have hc : isDigitChar c = true := by
      rw [List.all_cons, Bool.and_eq_true] at hd
      exact hd.1
    have hct : 48 ≤ c.toNat ∧ c.toNat ≤ 57 := by
      simpa [isDigitChar, Bool.and_eq_true, decide_eq_true_eq] using hc
    have h1 : ∀ rest, (c :: cs) = '-' :: rest → False := by
      intro rest heq
      have : c = '-' := by injection heq
      rw [this] at hct
      simp at hct
    have h2 : ∀ rest, (c :: cs) = '+' :: rest → False := by
      intro rest heq
      have : c = '+' := by injection heq
      rw [this] at hct
      simp at hct
    exact parseI64.eq_3 (c :: cs) h1 h2

theorem parseI64_renderInt (v : Int) (h : inI64 v) : parseI64 (renderInt v) = some v := by
  obtain ⟨hlo, hhi⟩ := h
  unfold renderInt
  by_cases hneg : v < 0
  · rw [if_pos hneg, parseI64.eq_1, parseDigits_renderNat]
    have hb : v.natAbs ≤ 2 ^ 63 := by omega
    simp only [Option.bind, if_pos hb]
    congr 1
    omega
  · rw [if_neg hneg,
      parseI64_digits _ (renderNat_ne_nil _) (renderNat_all_digits _),
      parseDigits_renderNat]
    have hb : ((v.natAbs : Nat) : Int) ≤ 2 ^ 63 - 1 := by omega
    simp only [Option.bind, if_pos hb]
    congr 1
    omega

/-! ## File round-trip lemmas -/

theorem takeWhile_eager {α : Type} (p : α → Bool) (a : List α) (x : α) (r : List α)
    (ha : ∀ c ∈ a, p c = true) (hx : p x = false) :
    List.takeWhile p (a ++ x :: r) = a := by
  induction a with
  | nil => simp [List.takeWhile, hx]
  | cons c a ih =>
    simp only [List.cons_append, List.takeWhile_cons, ha c (List.mem_cons_self c a), if_true]
    rw [ih (fun d hd => ha d (List.mem_cons_of_mem c hd))]

theorem dropWhile_eager {α : Type} (p : α → Bool) (a : List α) (x : α) (r : List α)
    (ha : ∀ c ∈ a, p c = true) (hx : p x = false) :
    List.dropWhile p (a ++ x :: r) = x :: r := by
  induction a with
  | nil => simp [List.dropWhile, hx]
  | cons c a ih =>
    simp only [List.cons_append, List.dropWhile_cons, ha c (List.mem_cons_self c a), if_true]
    exact ih (fun d hd => ha d (List.mem_cons_of_mem c hd))

/-- The part of a serialized entry before the terminating newline. -/
def lineBody (p : String × Int) : List Char :=
  p.1.data ++ ':' :: renderInt p.2

theorem entryLine_eq (p : String × Int) : entryLine p = lineBody p ++ ['\n'] := by
  unfold entryLine lineBody
  simp

theorem renderInt_chars (v : Int) : ∀ c ∈ renderInt v, 45 ≤ c.toNat ∧ c.toNat ≤ 57 := by
  intro c hc
  unfold renderInt at hc
  by_cases hneg : v < 0
  · rw [if_pos hneg] at hc
    rcases List.mem_cons.mp hc with h | h
    · rw [h]
      constructor <;> decide
    · have := renderNat_chars v.natAbs c h
      omega
  · rw [if_neg hneg] at hc
    have := renderNat_chars v.natAbs c hc
    omega

theorem renderInt_ne_nil (v : Int) : renderInt v ≠ [] := by
  unfold renderInt
  by_cases hneg : v < 0
  · simp [if_pos hneg]
  · rw [if_neg hneg]
    exact renderNat_ne_nil _

theorem lineBody_no_nl (p : String × Int) (hk : '\n' ∉ p.1.data) : '\n' ∉ lineBody p := by
  unfold lineBody
  intro hmem
  rcases List.mem_append.mp hmem with h | h
  · exact hk h
  · rcases List.mem_cons.mp h with h | h
    · exact absurd h.symm (by decide)
    · have := renderInt_chars p.2 _ h
      have hnl : ('\n').toNat = 10 := by decide
      omega

theorem lineBody_last (p : String × Int) : lineBody p ≠ [] ∧ (lineBody p).getLast? ≠ some '\r' := by
  unfold lineBody
  constructor
  · simp
  · rw [List.getLast?_append_of_ne_nil _ (by simp : ':' :: renderInt p.2 ≠ [])]
    rw [show ':' :: renderInt p.2 = [':'] ++ renderInt p.2 from rfl]
    rw [List.getLast?_append_of_ne_nil _ (renderInt_ne_nil p.2)]
    intro hlast
    have hm := List.mem_of_mem_getLast? hlast
    have := renderInt_chars p.2 _ hm
    have hcr : ('\r').toNat = 13 := by decide
    omega

theorem splitNl_append (a : List Char) (r : List Char) (h : '\n' ∉ a) :
    splitNl (a ++ '\n' :: r) = a :: splitNl r := by
  induction a with
  | nil => simp [splitNl]
  | cons c a ih =>
    have hc : c ≠ '\n' := fun hc => h (hc ▸ List.mem_cons_self c a)
    rw [List.cons_append, splitNl, if_neg hc, ih (fun hm => h (List.mem_cons_of_mem c hm))]

theorem splitNl_flat (ls : List (List Char)) (h : ∀ l ∈ ls, '\n' ∉ l) :
    splitNl ((ls.map (fun l => l ++ ['\n'])).flatten) = ls := by
  induction ls with
  | nil => rfl
  | cons a rest ih =>
    simp only [List.map_cons, List.flatten_cons]
    rw [List.append_assoc, List.singleton_append,
      splitNl_append a _ (h a (List.mem_cons_self a rest))]
    rw [ih (fun l hl => h l (List.mem_cons_of_mem a hl))]

theorem flatten_last_nl (ls : List (List Char)) (hne : ls ≠ [])
    (h : ∀ l ∈ ls, l.getLast? = some '\n') : ls.flatten.getLast? = some '\n' := by
  induction ls with
  | nil => exact absurd rfl hne
  | cons a rest ih =>
    rw [List.flatten_cons]
    by_cases hr : rest = []
    · subst hr
      simp only [List.flatten_nil, List.append_nil]
      exact h a (List.mem_cons_self a [])
    · have hfr : rest.flatten ≠ [] := by
        intro hfl
        obtain ⟨b, hb⟩ := List.exists_mem_of_ne_nil rest hr
        have hb' := h b (List.mem_cons_of_mem a hb)
        have : b = [] := (List.flatten_eq_nil_iff.mp hfl) b hb
        rw [this] at hb'
        simp at hb'
      rw [List.getLast?_append_of_ne_nil _ hfr]
      exact ih hr (fun l hl => h l (List.mem_cons_of_mem a hl))

theorem parseDbLine_lineBody (p : String × Int) (hk : ':' ∉ p.1.data) (hr : inI64 p.2) :
    parseDbLine (lineBody p) = some p := by
  obtain ⟨k, v⟩ := p
  unfold parseDbLine splitColon lineBody
  have ha : ∀ c ∈ k.data, (decide (c ≠ ':')) = true := by
    intro c hc
    simp only [decide_eq_true_eq]
    exact fun hccolon => hk (hccolon ▸ hc)
  have hx : (decide ((':' : Char) ≠ ':')) = false := by decide
  rw [dropWhile_eager _ _ _ _ ha hx, takeWhile_eager _ _ _ _ ha hx]
  simp only [parseI64_renderInt v hr, Option.map_some]
  rfl

theorem lookupKV_eq_none_iff (k : String) (m : List (String × Int)) :
    lookupKV k m = none ↔ k ∉ m.map Prod.fst := by
  induction m with
  | nil => simp [lookupKV]
  | cons p rest ih =>
    obtain ⟨k', v'⟩ := p
    by_cases hk : k' = k
    · simp [lookupKV, hk]
    · simp [lookupKV, hk, ih, Ne.symm hk]

theorem collectKV_aux (ps : List (String × Int)) :
    ∀ acc : List (String × Int), (ps.map Prod.fst).Nodup →
    (∀ k ∈ ps.map Prod.fst, k ∉ acc.map Prod.fst) →
    ps.foldl (fun m p => insertKV m p.1 p.2) acc = acc ++ ps := by
  induction ps with
  | nil =>
    intro acc _ _
    simp
  | cons p rest ih =>
    intro acc hnd hdisj
    obtain ⟨k, v⟩ := p
    have hkacc : lookupKV k acc = none := by
      rw [lookupKV_eq_none_iff]
      exact hdisj k (by simp)
    simp only [List.foldl_cons]
    rw [show insertKV acc k v = acc ++ [(k, v)] by rw [insertKV, hkacc]]
    rw [List.map_cons, List.nodup_cons] at hnd
    rw [ih (acc ++ [(k, v)]) hnd.2 ?hdisj]
    · simp
    case hdisj =>
      intro k' hk'
      rw [List.map_append]
      intro hmem
      rcases List.mem_append.mp hmem with h | h
      · exact hdisj k' (List.mem_cons_of_mem _ hk') h
      · simp at h
        rw [h] at hk'
        exact hnd.1 hk'

theorem collectKV_self (ps : List (String × Int)) (h : (ps.map Prod.fst).Nodup) :
    collectKV ps = ps := by
  unfold collectKV
  rw [collectKV_aux ps [] h (by simp)]
  simp

theorem linesRust_content (ps : List (String × Int)) (hk : ∀ p ∈ ps, '\n' ∉ (p.1 : String).data) :
    linesRust (linesContent ps) = ps.map lineBody := by
  have hcontent : linesContent ps = ((ps.map lineBody).map (fun l => l ++ ['\n'])).flatten := by
    unfold linesContent
    rw [List.map_map]
    congr 1
    exact List.map_eq_map_iff.mpr (fun p _ => entryLine_eq p)
  cases hps : ps with
  | nil =>
    rw [hps] at hcontent
    simp at hcontent
    rw [hcontent]
    rfl
  | cons p rest =>
    have hnonempty : (ps.map lineBody).map (fun l => l ++ ['\n']) ≠ [] := by
      rw [hps]
      simp
    have hlast : (linesContent ps).getLast? = some '\n' := by
      rw [hcontent]
      apply flatten_last_nl _ hnonempty
      intro l hl
      rw [List.mem_map] at hl
      obtain ⟨b, _, hb⟩ := hl
      rw [← hb]
      exact List.getLast?_concat b
    have hsplit : splitNl (linesContent ps) = ps.map lineBody := by
      rw [hcontent]
      apply splitNl_flat
      intro l hl
      rw [List.mem_map] at hl
      obtain ⟨q, hq, hql⟩ := hl
      rw [← hql]
      exact lineBody_no_nl q (hk q (hps ▸ hq))
    rw [← hps]
    unfold linesRust
    simp only [hlast, if_pos, hsplit]
    rw [List.map_map]
    rw [List.map_eq_map_iff]
    intro q _
    simp only [Function.comp_apply]
    unfold stripCr
    rw [if_neg (lineBody_last q).2]

theorem parse_roundtrip (ps : List (String × Int))
    (hk : ∀ p ∈ ps, ':' ∉ (p.1 : String).data ∧ '\n' ∉ (p.1 : String).data)
    (hr : ∀ p ∈ ps, inI64 p.2) (hnd : (ps.map Prod.fst).Nodup) :
    parse_zot_db (linesContent ps) = ps := by
  unfold parse_zot_db
  rw [linesRust_content ps (fun p hp => (hk p hp).2)]
  have hfm : (ps.map lineBody).filterMap parseDbLine = ps := by
    induction ps with
    | nil => rfl
    | cons p rest ih =>
      simp only [List.map_cons, List.filterMap_cons]
      rw [parseDbLine_lineBody p (hk p (List.mem_cons_self p rest)).1
        (hr p (List.mem_cons_self p rest))]
      rw [ih (fun q hq => hk q (List.mem_cons_of_mem p hq))
        (fun q hq => hr q (List.mem_cons_of_mem p hq))
        (by rw [List.map_cons, List.nodup_cons] at hnd; exact hnd.2)]
  rw [hfm]
  exact collectKV_self ps hnd

theorem writeLoop_ok (ps : List (String × Int)) :
    ∀ (i : Nat) (acc : List Char),
    writeLoop ps (fun _ => true) i acc = (acc ++ linesContent ps, true) := by
  induction ps with
  | nil =>
    intro i acc
    simp [writeLoop, linesContent]
  | cons p rest ih =>
    intro i acc
    rw [writeLoop]
    simp only [if_true]
    rw [ih (i + 1) (acc ++ entryLine p)]
    unfold linesContent
    simp

theorem applyMuts_dirty (db : RotDb) (ms : List (Bool × String)) (h : ms ≠ []) :
    (applyMuts db ms).dirty = true := by
  induction ms generalizing db with
  | nil => exact absurd rfl h
  | cons m rest ih =>
    rw [applyMuts, List.foldl_cons]
    by_cases hr : rest = []
    · subst hr
      simp only [List.foldl_nil]
      unfold applyMut
      by_cases hm : m.1
      · rw [if_pos hm]
        exact increment_dirty db m.2
      · rw [if_neg hm]
        exact decrement_dirty db m.2
    · exact ih (applyMut db m) hr

theorem sync_dirty_ok (db : RotDb) (fs : Option (List Char)) (hdirty : db.dirty = true) :
    db.sync true (fun _ => true) fs
      = ({ db with dirty := false }, some (linesContent db.values)) := by
  unfold RotDb.sync
  rw [hdirty]
  simp only [Bool.true_eq_false, if_false]
  rw [writeLoop_ok db.values 0 []]
  simp

/-! ## Claim C1: flush then reload reproduces the counter values -/

/-- C1: for a store whose keys contain no `:` and no newline, after any
nonempty sequence of increment/decrement mutations a `sync` followed by
a fresh load from the written content yields a store that assigns every
key the same value as the mutated store (in particular every mutated
key).  The key, range and key-distinctness hypotheses express exactly
the data-model invariants of the store (`i64` values, `HashMap` keys). -/
theorem C1_round_trip (db : RotDb) (ms : List (Bool × String)) (fs : Option (List Char))
    (fn : String) (hne : ms ≠ [])
    (hk : ∀ p ∈ (applyMuts db ms).values, ':' ∉ (p.1 : String).data ∧ '\n' ∉ (p.1 : String).data)
    (hr : ∀ p ∈ (applyMuts db ms).values, inI64 p.2)
    (hnd : ((applyMuts db ms).values.map Prod.fst).Nodup) :
    ∀ k, (RotDb.new fn ((applyMuts db ms).sync true (fun _ => true) fs).2).value k
      = (applyMuts db ms).value k := by
  intro k
  have hdirty : (applyMuts db ms).dirty = true := applyMuts_dirty db ms hne
  rw [sync_dirty_ok (applyMuts db ms) fs hdirty]
  unfold RotDb.new RotDb.value
  simp only
  rw [parse_roundtrip (applyMuts db ms).values hk hr hnd]

/-- Witness for C1: a fresh store incremented once at `Foo::Bar`, written
out and reloaded, agrees at the separator/case variant `FOO->BAR`. -/
theorem C1_round_trip_witness :
    (RotDb.new "zot.db"
      ((applyMuts (RotDb.mk "zot.db" [] false) [(true, "Foo::Bar")]).sync
        true (fun _ => true) none).2).value "FOO->BAR"
      = (applyMuts (RotDb.mk "zot.db" [] false) [(true, "Foo::Bar")]).value "FOO->BAR" :=
  C1_round_trip (RotDb.mk "zot.db" [] false) [(true, "Foo::Bar")] none "zot.db"
    (by decide) (by decide) (by decide) (by decide) "FOO->BAR"

/-! ## Claim C2: behaviour of a failing flush -/

theorem writeLoop_fail (ps : List (String × Int)) :
    ∀ (writeOk : Nat → Bool) (i : Nat) (acc : List Char),
    (∃ j, j < ps.length ∧ writeOk (i + j) = false) →
    (writeLoop ps writeOk i acc).2 = false ∧
    ∃ m, m ≤ ps.length ∧ (writeLoop ps writeOk i acc).1 = acc ++ linesContent (ps.take m) := by
  induction ps with
  | nil =>
    intro writeOk i acc h
    obtain ⟨j, hj, _⟩ := h
    simp at hj
  | cons p rest ih =>
    intro writeOk i acc h
    by_cases h0 : writeOk i = true
    · rw [writeLoop, if_pos h0]
      have hnext : ∃ j, j < rest.length ∧ writeOk (i + 1 + j) = false := by
        obtain ⟨j, hj, hjf⟩ := h
        cases j with
        | zero =>
          rw [Nat.add_zero] at hjf
          rw [hjf] at h0
          exact absurd h0 (by decide)
        | succ j' =>
          refine ⟨j', ?_, ?_⟩
          · simp at hj
            omega
          · rw [show i + 1 + j' = i + (j' + 1) by omega]
            exact hjf
      obtain ⟨h2, m, hm, h1⟩ := ih writeOk (i + 1) (acc ++ entryLine p) hnext
      refine ⟨h2, m + 1, ?_, ?_⟩
      · simp
        omega
      · rw [h1, List.take_succ_cons]
        unfold linesContent
        simp
    · rw [writeLoop, if_neg h0]
      refine ⟨rfl, 0, by simp, ?_⟩
      simp [linesContent]

/-- C2 fails on the code at a concrete input: a dirty two-entry store
whose second write fails leaves a truncated one-line file on disk, not
the previously flushed content, because `File::create` truncates the
file in place before the writes. -/
theorem C2_counterexample :
    ((RotDb.mk "zot.db" [("a", 1), ("b", 2)] true).sync true (fun i => i == 0)
        (some "a:5\nb:6\n".data)).1.dirty = true ∧
    ((RotDb.mk "zot.db" [("a", 1), ("b", 2)] true).sync true (fun i => i == 0)
        (some "a:5\nb:6\n".data)).2 = some "a:1\n".data ∧
    some "a:1\n".data ≠ some "a:5\nb:6\n".data := by
  refine ⟨?_, ?_, by decide⟩ <;> decide

/-- C2 amended: on a failed flush the dirty flag always remains true; an
open failure leaves the file unchanged, but a write failure leaves the
file holding exactly the entry lines written before the failure (an
initial segment of the new serialization, possibly truncated), because
the file is rewritten in place rather than via a temporary file. -/
theorem C2_flush_failure (db : RotDb) (fs : Option (List Char)) (writeOk : Nat → Bool)
    (hd : db.dirty = true) :
    db.sync false writeOk fs = (db, fs) ∧
    ((∃ j, j < db.values.length ∧ writeOk j = false) →
      (db.sync true writeOk fs).1.dirty = true ∧
      ∃ m, m ≤ db.values.length ∧
        (db.sync true writeOk fs).2 = some (linesContent (db.values.take m))) := by
  constructor
  · unfold RotDb.sync
    rw [hd]
    simp
  · intro hfail
    have hwl := writeLoop_fail db.values writeOk 0 [] (by simpa using hfail)
    obtain ⟨h2, m, hm, h1⟩ := hwl
    unfold RotDb.sync
    rw [hd]
    simp only [Bool.true_eq_false, if_false]
    constructor
    · rcases hmatch : writeLoop db.values writeOk 0 [] with ⟨content, ok⟩
      rw [hmatch] at h2
      subst h2
      simp [hd]
    · refine ⟨m, hm, ?_⟩
      rcases hmatch : writeLoop db.values writeOk 0 [] with ⟨content, ok⟩
      rw [hmatch] at h2 h1
      subst h2
      simp only [List.nil_append] at h1
      simp [h1]

/-- Witness for C2 at the concrete failing store of the counterexample. -/
theorem C2_flush_failure_witness :
    (RotDb.mk "zot.db" [("a", 1), ("b", 2)] true).sync false (fun i => i == 0)
        (some "a:5\nb:6\n".data)
      = (RotDb.mk "zot.db" [("a", 1), ("b", 2)] true, some "a:5\nb:6\n".data) ∧
    ((RotDb.mk "zot.db" [("a", 1), ("b", 2)] true).sync true (fun i => i == 0)
        (some "a:5\nb:6\n".data)).1.dirty = true := by
  have h := C2_flush_failure (RotDb.mk "zot.db" [("a", 1), ("b", 2)] true)
    (some "a:5\nb:6\n".data) (fun i => i == 0) rfl
  exact ⟨h.1, (h.2 ⟨1, by decide, by decide⟩).1⟩

/-! ## The command matcher (`line_parse.rs`)

The three regexes of `line_parse.rs` are embedded as recursive matchers
over `List Char`.  Greedy quantifier semantics coincide with the
deterministic maximal-munch scan implemented here: every quantified
class in the regexes is disjoint from the character that must follow it,
except inside the block-comment body, where the backtracking choice is
modelled explicitly by `scanBlockF`. -/

/-- Model of `ParsedLine`. -/
inductive ParsedLine where
  | Nothing : ParsedLine
  | Increment : String → ParsedLine
  | Decrement : String → ParsedLine
  | Query : String → ParsedLine
deriving DecidableEq

/-- Model of `parsed_from`. -/
def parsed_from (op ident : String) : ParsedLine :=
  match op with
  | "++" => ParsedLine.Increment ident
  | "--" => ParsedLine.Decrement ident
  | "?" => ParsedLine.Query ident
  | _ => ParsedLine.Nothing

/-- Body scan of the block-comment regex `/\*(?:[^/]|/[^*])*\*/` after
the opening `/*`: each iteration consumes one non-`/` character or a `/`
followed by a non-`*` character, greedily; the match closes with `*/` at
the latest boundary from which the scan cannot continue, which is what
the greedy star with backtracking produces.  Returns the remainder after
the closing `*/`, or `none` when no closing boundary is reachable.  The
fuel makes the recursion structural; every step consumes at least one
character, so `fuel = length` is always enough. -/
def scanBlockF : Nat → List Char → Option (List Char)
  | 0, _ => none
  | fuel + 1, l =>
    match l with
    | [] => none
    | '*' :: '/' :: rest =>
      match scanBlockF fuel ('/' :: rest) with
      | some r => some r
      | none => some rest
    | '/' :: '*' :: _ => none
    | '/' :: [] => none
    | '/' :: _ :: rest => scanBlockF fuel rest
    | _ :: rest => scanBlockF fuel rest

/-- Model of `RE_CLEAN.replace_all(line, "")`: scan left to right; at
`/*` drop a closing block comment, at `//` drop the rest of the line up
to (not including) the next newline, otherwise keep the character and
move on.  Fueled; `fuel = length` is always enough. -/
def cleanF : Nat → List Char → List Char
  | 0, l => l
  | fuel + 1, l =>
    match l with
    | [] => []
    | '/' :: '*' :: rest =>
      match scanBlockF rest.length rest with
      | some r => cleanF fuel r
      | none => '/' :: cleanF fuel ('*' :: rest)
    | '/' :: '/' :: rest => cleanF fuel (rest.dropWhile (· ≠ '\n'))
    | c :: rest => c :: cleanF fuel rest

/-- The comment-stripping pass of `parse_line`. -/
def cleanChars (l : List Char) : List Char := cleanF l.length l

/-- Rust regex `\s`: the Unicode White_Space characters. -/
def isWsRe (c : Char) : Bool :=
  c.toNat = 9 || c.toNat = 10 || c.toNat = 11 || c.toNat = 12 || c.toNat = 13 ||
  c.toNat = 32 || c.toNat = 133 || c.toNat = 160 || c.toNat = 5760 ||
  (8192 ≤ c.toNat && c.toNat ≤ 8202) || c.toNat = 8232 || c.toNat = 8233 ||
  c.toNat = 8239 || c.toNat = 8287 || c.toNat = 12288

/-- First character of an identifier segment: `[A-Za-z_]`. -/
def isSegStart (c : Char) : Bool :=
  (65 ≤ c.toNat && c.toNat ≤ 90) || (97 ≤ c.toNat && c.toNat ≤ 122) || c.toNat = 95

/-- Any character of a segment: `[A-Za-z0-9_]`. -/
def isSegChar (c : Char) : Bool := isSegStart c || (48 ≤ c.toNat && c.toNat ≤ 57)

/-- One segment `[A-Za-z_][A-Za-z0-9_]*`, matched greedily (the
character after a maximal segment is never a segment character, so the
greedy match is the only possible one). -/
def matchSeg : List Char → Option (List Char × List Char)
  | [] => none
  | c :: r =>
    if isSegStart c then some (c :: r.takeWhile isSegChar, r.dropWhile isSegChar) else none

/-- A separator `\.|->|::` at the head of the list. -/
def sepSplit : List Char → Option (List Char × List Char)
  | '.' :: r => some (['.'], r)
  | '-' :: '>' :: r => some (['-', '>'], r)
  | ':' :: ':' :: r => some ([':', ':'], r)
  | _ => none

/-- The identifier `seg((?:\.|->|::)seg)*` of `RE_PREOP`/`RE_POSTOP`,
matched greedily with the regex backtracking behaviour: a separator is
consumed only when a further segment follows it.  Fueled; every
iteration consumes at least two characters, so `fuel = length` is always
enough. -/
def matchIdentF : Nat → List Char → Option (List Char × List Char)
  | 0, _ => none
  | fuel + 1, l =>
    match matchSeg l with
    | none => none
    | some (sg, rest) =>
      match sepSplit rest with
      | none => some (sg, rest)
      | some (sep, r2) =>
        match matchIdentF fuel r2 with
        | some (id2, t) => some (sg ++ sep ++ id2, t)
        | none => some (sg, rest)

/-- The identifier matcher at its sufficient fuel. -/
def matchIdent (l : List Char) : Option (List Char × List Char) := matchIdentF l.length l

/-- The trailing `[\s;]*$` of both anchored regexes. -/
def tailOk (l : List Char) : Bool := l.all fun c => isWsRe c || c == ';'

/-- Continuation of `RE_PREOP` after the operator token: `\s*`, the
identifier, then `[\s;]*$`.  Returns the two capture groups. -/
def preMatchTail (op : List Char) (r : List Char) : Option (List Char × List Char) :=
  match matchIdent (r.dropWhile isWsRe) with
  | some (id, rest) => if tailOk rest then some (op, id) else none
  | none => none

/-- The anchored match of `RE_PREOP`:
`^\s*(\+\+|--|\?)\s*(ident)[\s;]*$`. -/
def preMatch (l : List Char) : Option (List Char × List Char) :=
  match l.dropWhile isWsRe with
  | '+' :: '+' :: r => preMatchTail ['+', '+'] r
  | '-' :: '-' :: r => preMatchTail ['-', '-'] r
  | '?' :: r => preMatchTail ['?'] r
  | _ => none

/-- The operator-and-trailer part of `RE_POSTOP` after the identifier
and the following optional whitespace. -/
def postOpMatch (id : List Char) (r : List Char) : Option (List Char × List Char) :=
  match r with
  | '+' :: '+' :: t => if tailOk t then some (['+', '+'], id) else none
  | '-' :: '-' :: t => if tailOk t then some (['-', '-'], id) else none
  | _ => none

/-- The anchored match of `RE_POSTOP`: `^\s*(ident)\s*(\+\+|--)[\s;]*$`. -/
def postMatch (l : List Char) : Option (List Char × List Char) :=
  match matchIdent (l.dropWhile isWsRe) with
  | none => none
  | some (id, r) => postOpMatch id (r.dropWhile isWsRe)

/-- The matching stage of `parse_line` on the comment-stripped text: try
the operator-first form with `parsed_from(caps[1], caps[2])`, then the
operator-last form with `parsed_from(caps[2], caps[1])`, else `Nothing`. -/
def matchForms (l : List Char) : ParsedLine :=
  match preMatch l with
  | some (op, id) => parsed_from (String.mk op) (String.mk id)
  | none =>
    match postMatch l with
    | some (op, id) => parsed_from (String.mk op) (String.mk id)
    | none => ParsedLine.Nothing

/-- Model of `parse_line`: strip comments, then match the two anchored
forms against the entire remaining text. -/
def parse_line (line : String) : ParsedLine :=
  matchForms (cleanChars line.data)

/-! ## The spec-side command grammar

These definitions follow the spec's words for the two whole-text
anchored forms, for comparison with the embedded matchers. -/

/-- A segment per the spec: `[A-Za-z_][A-Za-z0-9_]*`. -/
def IsSegP (s : List Char) : Prop :=
  ∃ c t, s = c :: t ∧ isSegStart c = true ∧ ∀ x ∈ t, isSegChar x = true

/-- An identifier per the spec: one or more segments joined by exactly
one of `.`, `->`, `::`. -/
inductive IsIdentP : List Char → Prop where
  | seg (s : List Char) : IsSegP s → IsIdentP s
  | dot (s r : List Char) : IsSegP s → IsIdentP r → IsIdentP (s ++ '.' :: r)
  | arrow (s r : List Char) : IsSegP s → IsIdentP r → IsIdentP (s ++ '-' :: '>' :: r)
  | colons (s r : List Char) : IsSegP s → IsIdentP r → IsIdentP (s ++ ':' :: ':' :: r)

/-- The operator-first form per the spec: optional leading whitespace,
an operator token, optional whitespace, an identifier, then only
whitespace and semicolons to the end of text. -/
def PreFormP (l op id : List Char) : Prop :=
  (op = ['+', '+'] ∨ op = ['-', '-'] ∨ op = ['?']) ∧ IsIdentP id ∧
  ∃ w1 w2 t, (∀ c ∈ w1, isWsRe c = true) ∧ (∀ c ∈ w2, isWsRe c = true) ∧
    (∀ c ∈ t, isWsRe c = true ∨ c = ';') ∧ l = w1 ++ op ++ w2 ++ id ++ t

/-- The operator-last form per the spec: identifier then `++` or `--`
(no `?`), with the same whitespace and trailer freedom. -/
def PostFormP (l op id : List Char) : Prop :=
  (op = ['+', '+'] ∨ op = ['-', '-']) ∧ IsIdentP id ∧
  ∃ w1 w2 t, (∀ c ∈ w1, isWsRe c = true) ∧ (∀ c ∈ w2, isWsRe c = true) ∧
    (∀ c ∈ t, isWsRe c = true ∨ c = ';') ∧ l = w1 ++ id ++ w2 ++ op ++ t

/-- The result the spec's two anchored forms prescribe for a
comment-stripped text: the operator-first form wins when it applies,
otherwise the operator-last form, otherwise `Nothing`. -/
def SpecParses (l : List Char) (r : ParsedLine) : Prop :=
  (∃ op id, PreFormP l op id ∧ r = parsed_from (String.mk op) (String.mk id)) ∨
  ((¬∃ op id, PreFormP l op id) ∧
    ∃ op id, PostFormP l op id ∧ r = parsed_from (String.mk op) (String.mk id)) ∨
  ((¬∃ op id, PreFormP l op id) ∧ (¬∃ op id, PostFormP l op id) ∧ r = ParsedLine.Nothing)

/-! ## Character class facts -/

theorem segStart_not_ws (c : Char) (h : isSegStart c = true) : isWsRe c = false := by
  simp only [isSegStart, Bool.or_eq_true, Bool.and_eq_true, decide_eq_true_eq] at h
  simp only [isWsRe, Bool.or_eq_false_iff, Bool.and_eq_false_iff, decide_eq_false_iff_not]
  omega

theorem ws_or_semi_facts (c : Char) (h : isWsRe c = true ∨ c = ';') :
    isSegChar c = false ∧ c ≠ '.' ∧ c ≠ '-' ∧ c ≠ ':' ∧ c ≠ '+' := by
  have ht : c.toNat = 59 ∨ (isWsRe c = true) := by
    rcases h with h | h
    · right; exact h
    · left; rw [h]; rfl
  have harith : c.toNat = 59 ∨ (c.toNat = 9 ∨ c.toNat = 10 ∨ c.toNat = 11 ∨ c.toNat = 12 ∨
      c.toNat = 13 ∨ c.toNat = 32 ∨ c.toNat = 133 ∨ c.toNat = 160 ∨ c.toNat = 5760 ∨
      (8192 ≤ c.toNat ∧ c.toNat ≤ 8202) ∨ c.toNat = 8232 ∨ c.toNat = 8233 ∨
      c.toNat = 8239 ∨ c.toNat = 8287 ∨ c.toNat = 12288) := by
    rcases ht with h' | h'
    · left; exact h'
    · right
      simp only [isWsRe, Bool.or_eq_true, Bool.and_eq_true, decide_eq_true_eq] at h'
      tauto
  have hchar : ∀ d : Char, c = d → c.toNat = d.toNat := fun d hd => by rw [hd]
  refine ⟨?_, ?_, ?_, ?_, ?_⟩
  · simp only [isSegChar, isSegStart, Bool.or_eq_false_iff, Bool.and_eq_false_iff,
      decide_eq_false_iff_not]
    omega
  · intro hd; have := hchar '.' hd; simp at this; omega
  · intro hd; have := hchar '-' hd; simp at this; omega
  · intro hd; have := hchar ':' hd; simp at this; omega
  · intro hd; have := hchar '+' hd; simp at this; omega

/-! ## Soundness and completeness of the identifier matcher -/

theorem matchSeg_sound (l sg rest : List Char) (h : matchSeg l = some (sg, rest)) :
    IsSegP sg ∧ l = sg ++ rest := by
  cases l with
  | nil => simp [matchSeg] at h
  | cons c r =>
    rw [matchSeg] at h
    by_cases hc : isSegStart c = true
    · rw [if_pos hc] at h
      simp only [Option.some.injEq, Prod.mk.injEq] at h
      obtain ⟨hsg, hrest⟩ := h
      constructor
      · exact ⟨c, r.takeWhile isSegChar, hsg.symm, hc,
          fun x hx => List.mem_takeWhile_imp hx⟩
      · rw [← hsg, ← hrest]
        simp [List.takeWhile_append_dropWhile]
    · rw [if_neg hc] at h
      simp at h

theorem matchSeg_complete (sg rest : List Char) (hs : IsSegP sg)
    (hb : ∀ c, rest.head? = some c → isSegChar c = false) :
    matchSeg (sg ++ rest) = some (sg, rest) := by
  obtain ⟨c, t, rfl, hc, ht⟩ := hs
  rw [List.cons_append, matchSeg, if_pos hc]
  cases rest with
  | nil =>
    rw [List.append_nil, List.takeWhile_eq_self_iff.mpr ht, List.dropWhile_eq_nil_iff.mpr ht]
  | cons x r =>
    have hx : isSegChar x = false := hb x rfl
    rw [takeWhile_eager _ _ _ _ ht hx, dropWhile_eager _ _ _ _ ht hx]

theorem sepSplit_sound (l sep r2 : List Char) (h : sepSplit l = some (sep, r2)) :
    l = sep ++ r2 ∧ (sep = ['.'] ∨ sep = ['-', '>'] ∨ sep = [':', ':']) := by
  unfold sepSplit at h
  split at h <;> simp_all
  all_goals
    obtain ⟨rfl, rfl⟩ := h
  all_goals rfl

theorem sepSplit_ws_none (t : List Char) (h : ∀ c ∈ t, isWsRe c = true ∨ c = ';') :
    sepSplit t = none := by
  cases t with
  | nil => rfl
  | cons c r =>
    have hf := ws_or_semi_facts c (h c (List.mem_cons_self c r))
    unfold sepSplit
    split
    · exact absurd (by injection ‹c :: r = '.' :: _›) hf.2.1
    · exact absurd (by injection ‹c :: r = '-' :: '>' :: _›) hf.2.2.1
    · exact absurd (by injection ‹c :: r = ':' :: ':' :: _›) hf.2.2.2.1
    · rfl

theorem IsSegP_ne_nil (s : List Char) (h : IsSegP s) : s ≠ [] := by
  obtain ⟨c, t, rfl, _, _⟩ := h
  simp

theorem IsIdentP_head (id : List Char) (h : IsIdentP id) :
    ∃ c r, id = c :: r ∧ isSegStart c = true := by
  induction h with
  | seg s hs =>
    obtain ⟨c, t, rfl, hc, _⟩ := hs
    exact ⟨c, t, rfl, hc⟩
  | dot s r hs _ _ =>
    obtain ⟨c, t, rfl, hc, _⟩ := hs
    exact ⟨c, t ++ '.' :: r, by simp, hc⟩
  | arrow s r hs _ _ =>
    obtain ⟨c, t, rfl, hc, _⟩ := hs
    exact ⟨c, t ++ '-' :: '>' :: r, by simp, hc⟩
  | colons s r hs _ _ =>
    obtain ⟨c, t, rfl, hc, _⟩ := hs
    exact ⟨c, t ++ ':' :: ':' :: r, by simp, hc⟩

theorem matchIdentF_sound (f : Nat) :
    ∀ l id t, matchIdentF f l = some (id, t) → IsIdentP id ∧ l = id ++ t := by
  induction f with
  | zero =>
    intro l id t h
    simp [matchIdentF] at h
  | succ f ih =>
    intro l id t h
    rw [matchIdentF] at h
    cases hseg : matchSeg l with
    | none => rw [hseg] at h; simp at h
    | some p =>
      obtain ⟨sg, rest⟩ := p
      obtain ⟨hsg, hleq⟩ := matchSeg_sound l sg rest hseg
      rw [hseg] at h
      dsimp only at h
      cases hsep : sepSplit rest with
      | none =>
        rw [hsep] at h
        simp only [Option.some.injEq, Prod.mk.injEq] at h
        obtain ⟨rfl, rfl⟩ := h
        exact ⟨IsIdentP.seg _ hsg, hleq⟩
      | some q =>
        obtain ⟨sep, r2⟩ := q
        obtain ⟨hreq, hsepcase⟩ := sepSplit_sound rest sep r2 hsep
        rw [hsep] at h
        dsimp only at h
        cases hrec : matchIdentF f r2 with
        | none =>
          rw [hrec] at h
          simp only [Option.some.injEq, Prod.mk.injEq] at h
          obtain ⟨rfl, rfl⟩ := h
          exact ⟨IsIdentP.seg _ hsg, hleq⟩
        | some q2 =>
          obtain ⟨id2, t2⟩ := q2
          obtain ⟨hid2, hr2eq⟩ := ih r2 id2 t2 hrec
          rw [hrec] at h
          simp only [Option.some.injEq, Prod.mk.injEq] at h
          obtain ⟨rfl, rfl⟩ := h
          constructor
          · rcases hsepcase with rfl | rfl | rfl
            · exact (by simp : sg ++ ['.'] ++ id2 = sg ++ '.' :: id2) ▸
                IsIdentP.dot sg id2 hsg hid2
            · exact (by simp : sg ++ ['-', '>'] ++ id2 = sg ++ '-' :: '>' :: id2) ▸
                IsIdentP.arrow sg id2 hsg hid2
            · exact (by simp : sg ++ [':', ':'] ++ id2 = sg ++ ':' :: ':' :: id2) ▸
                IsIdentP.colons sg id2 hsg hid2
          · rw [hleq, hreq, hr2eq]
            simp [List.append_assoc]

theorem matchIdentF_complete (id t : List Char) (hs : IsIdentP id)
    (hsep : sepSplit t = none)
    (hb : ∀ c, t.head? = some c → isSegChar c = false) :
    ∀ f, (id ++ t).length ≤ f → matchIdentF f (id ++ t) = some (id, t) := by
  induction hs with
  | seg s hseg =>
    intro f hf
    obtain ⟨c, r, rfl, _, _⟩ := hseg
    cases f with
    | zero => simp at hf
    | succ f =>
      rw [matchIdentF, matchSeg_complete _ t ⟨c, r, rfl, by assumption, by assumption⟩ hb]
      dsimp only
      rw [hsep]
  | dot s r hseg hr ih =>
    intro f hf
    have hrw : (s ++ '.' :: r) ++ t = s ++ '.' :: (r ++ t) := by simp
    rw [hrw]
    obtain ⟨c, cs, hceq, _, _⟩ := hseg
    cases f with
    | zero =>
      rw [hceq] at hf
      simp at hf
    | succ f =>
      rw [matchIdentF,
        matchSeg_complete s ('.' :: (r ++ t)) ⟨c, cs, hceq, by assumption, by assumption⟩
          (by intro x hx; injection hx with hx; rw [← hx]; rfl)]
      dsimp only
      rw [show sepSplit ('.' :: (r ++ t)) = some (['.'], r ++ t) from rfl]
      dsimp only
      rw [ih f ?hlen]
      · simp
      case hlen =>
        rw [hceq] at hf
        simp only [List.length_append, List.length_cons] at hf ⊢
        omega
  | arrow s r hseg hr ih =>
    intro f hf
    have hrw : (s ++ '-' :: '>' :: r) ++ t = s ++ '-' :: '>' :: (r ++ t) := by simp
    rw [hrw]
    obtain ⟨c, cs, hceq, _, _⟩ := hseg
    cases f with
    | zero =>
      rw [hceq] at hf
      simp at hf
    | succ f =>
      rw [matchIdentF,
        matchSeg_complete s ('-' :: '>' :: (r ++ t)) ⟨c, cs, hceq, by assumption, by assumption⟩
          (by intro x hx; injection hx with hx; rw [← hx]; rfl)]
      dsimp only
      rw [show sepSplit ('-' :: '>' :: (r ++ t)) = some (['-', '>'], r ++ t) from rfl]
      dsimp only
      rw [ih f ?hlen]
      · simp
      case hlen =>
        rw [hceq] at hf
        simp only [List.length_append, List.length_cons] at hf ⊢
        omega
  | colons s r hseg hr ih =>
    intro f hf
    have hrw : (s ++ ':' :: ':' :: r) ++ t = s ++ ':' :: ':' :: (r ++ t) := by simp
    rw [hrw]
    obtain ⟨c, cs, hceq, _, _⟩ := hseg
    cases f with
    | zero =>
      rw [hceq] at hf
      simp at hf
    | succ f =>
      rw [matchIdentF,
        matchSeg_complete s (':' :: ':' :: (r ++ t)) ⟨c, cs, hceq, by assumption, by assumption⟩
          (by intro x hx; injection hx with hx; rw [← hx]; rfl)]
      dsimp only
      rw [show sepSplit (':' :: ':' :: (r ++ t)) = some ([':', ':'], r ++ t) from rfl]
      dsimp only
      rw [ih f ?hlen]
      · simp
      case hlen =>
        rw [hceq] at hf
        simp only [List.length_append, List.length_cons] at hf ⊢
        omega

/-- The identifier matcher at its canonical fuel is sound. -/
theorem matchIdent_sound (l id t : List Char) (h : matchIdent l = some (id, t)) :
    IsIdentP id ∧ l = id ++ t :=
  matchIdentF_sound l.length l id t h

/-- The identifier matcher at its canonical fuel is complete. -/
theorem matchIdent_complete (id t : List Char) (hs : IsIdentP id)
    (hsep : sepSplit t = none)
    (hb : ∀ c, t.head? = some c → isSegChar c = false) :
    matchIdent (id ++ t) = some (id, t) :=
  matchIdentF_complete id t hs hsep hb (id ++ t).length le_rfl

/-! ## Soundness and completeness of the two anchored matchers -/

theorem tailOk_iff (t : List Char) :
    tailOk t = true ↔ ∀ c ∈ t, isWsRe c = true ∨ c = ';' := by
  unfold tailOk
  rw [List.all_eq_true]
  constructor
  · intro h c hc
    have := h c hc
    simp only [Bool.or_eq_true, beq_iff_eq] at this
    exact this
  · intro h c hc
    simp only [Bool.or_eq_true, beq_iff_eq]
    exact h c hc

theorem preMatchTail_sound (op r op' id : List Char)
    (h : preMatchTail op r = some (op', id)) :
    op' = op ∧ IsIdentP id ∧ ∃ w2 t, (∀ c ∈ w2, isWsRe c = true) ∧
      (∀ c ∈ t, isWsRe c = true ∨ c = ';') ∧ r = w2 ++ id ++ t := by
  unfold preMatchTail at h
  cases hmi : matchIdent (r.dropWhile isWsRe) with
  | none => rw [hmi] at h; simp at h
  | some p =>
    obtain ⟨idm, rest⟩ := p
    rw [hmi] at h
    dsimp only at h
    by_cases htl : tailOk rest = true
    · rw [if_pos htl] at h
      simp only [Option.some.injEq, Prod.mk.injEq] at h
      obtain ⟨rfl, rfl⟩ := h
      obtain ⟨hident, hreq⟩ := matchIdent_sound _ _ _ hmi
      refine ⟨rfl, hident, r.takeWhile isWsRe, rest, ?_, (tailOk_iff rest).mp htl, ?_⟩
      · exact fun c hc => List.mem_takeWhile_imp hc
      · conv_lhs => rw [← List.takeWhile_append_dropWhile (p := isWsRe) (l := r)]
        rw [hreq, List.append_assoc]
    · rw [if_neg htl] at h
      simp at h

theorem preMatch_sound (l op id : List Char) (h : preMatch l = some (op, id)) :
    PreFormP l op id := by
  have hsplit : l = l.takeWhile isWsRe ++ l.dropWhile isWsRe :=
    (List.takeWhile_append_dropWhile isWsRe l).symm
  have hw1 : ∀ c ∈ l.takeWhile isWsRe, isWsRe c = true :=
    fun c hc => List.mem_takeWhile_imp hc
  unfold preMatch at h
  split at h
  next r heq =>
    obtain ⟨hop, hident, w2, t, hw2, ht, hreq⟩ := preMatchTail_sound _ _ _ _ h
    refine ⟨Or.inl hop, hident, l.takeWhile isWsRe, w2, t, hw1, hw2, ht, ?_⟩
    subst hop
    conv_lhs => rw [hsplit]
    rw [heq, hreq]
    simp
  next r heq =>
    obtain ⟨hop, hident, w2, t, hw2, ht, hreq⟩ := preMatchTail_sound _ _ _ _ h
    refine ⟨Or.inr (Or.inl hop), hident, l.takeWhile isWsRe, w2, t, hw1, hw2, ht, ?_⟩
    subst hop
    conv_lhs => rw [hsplit]
    rw [heq, hreq]
    simp
  next r heq =>
    obtain ⟨hop, hident, w2, t, hw2, ht, hreq⟩ := preMatchTail_sound _ _ _ _ h
    refine ⟨Or.inr (Or.inr hop), hident, l.takeWhile isWsRe, w2, t, hw1, hw2, ht, ?_⟩
    subst hop
    conv_lhs => rw [hsplit]
    rw [heq, hreq]
    simp
  next =>
    simp at h

theorem preMatchTail_complete (op w2 id t : List Char) (hident : IsIdentP id)
    (hw2 : ∀ c ∈ w2, isWsRe c = true) (ht : ∀ c ∈ t, isWsRe c = true ∨ c = ';') :
    preMatchTail op (w2 ++ id ++ t) = some (op, id) := by
  obtain ⟨c, r, hceq, hc⟩ := IsIdentP_head id hident
  have hdw : (w2 ++ id ++ t).dropWhile isWsRe = id ++ t := by
    rw [hceq, show w2 ++ (c :: r) ++ t = w2 ++ c :: (r ++ t) by simp]
    rw [dropWhile_eager _ w2 c _ hw2 (segStart_not_ws c hc)]
    simp
  unfold preMatchTail
  rw [hdw, matchIdent_complete id t hident (sepSplit_ws_none t ht)
    (fun x hx => by
      cases t with
      | nil => simp at hx
      | cons d t' =>
        have : d = x := by injection hx
        exact this ▸ (ws_or_semi_facts d (ht d (List.mem_cons_self d t'))).1)]
  dsimp only
  rw [if_pos ((tailOk_iff t).mpr ht)]

theorem preMatch_complete (l op id : List Char) (hp : PreFormP l op id) :
    preMatch l = some (op, id) := by
  obtain ⟨hop, hident, w1, w2, t, hw1, hw2, ht, rfl⟩ := hp
  rcases hop with rfl | rfl | rfl
  · have hdw : (w1 ++ ['+', '+'] ++ w2 ++ id ++ t).dropWhile isWsRe
        = '+' :: '+' :: (w2 ++ id ++ t) := by
      rw [show w1 ++ ['+', '+'] ++ w2 ++ id ++ t = w1 ++ '+' :: ('+' :: (w2 ++ id ++ t))
        by simp]
      exact dropWhile_eager _ w1 '+' _ hw1 (by decide)
    unfold preMatch
    rw [hdw]
    exact preMatchTail_complete _ w2 id t hident hw2 ht
  · have hdw : (w1 ++ ['-', '-'] ++ w2 ++ id ++ t).dropWhile isWsRe
        = '-' :: '-' :: (w2 ++ id ++ t) := by
      rw [show w1 ++ ['-', '-'] ++ w2 ++ id ++ t = w1 ++ '-' :: ('-' :: (w2 ++ id ++ t))
        by simp]
      exact dropWhile_eager _ w1 '-' _ hw1 (by decide)
    unfold preMatch
    rw [hdw]
    exact preMatchTail_complete _ w2 id t hident hw2 ht
  · have hdw : (w1 ++ ['?'] ++ w2 ++ id ++ t).dropWhile isWsRe
        = '?' :: (w2 ++ id ++ t) := by
      rw [show w1 ++ ['?'] ++ w2 ++ id ++ t = w1 ++ '?' :: (w2 ++ id ++ t) by simp]
      exact dropWhile_eager _ w1 '?' _ hw1 (by decide)
    unfold preMatch
    rw [hdw]
    exact preMatchTail_complete _ w2 id t hident hw2 ht

theorem postMatch_sound (l op id : List Char) (h : postMatch l = some (op, id)) :
    PostFormP l op id := by
  have hsplit : l = l.takeWhile isWsRe ++ l.dropWhile isWsRe :=
    (List.takeWhile_append_dropWhile isWsRe l).symm
  have hw1 : ∀ c ∈ l.takeWhile isWsRe, isWsRe c = true :=
    fun c hc => List.mem_takeWhile_imp hc
  unfold postMatch at h
  cases hmi : matchIdent (l.dropWhile isWsRe) with
  | none => rw [hmi] at h; simp at h
  | some p =>
    obtain ⟨idm, r⟩ := p
    rw [hmi] at h
    obtain ⟨hident, hreq⟩ := matchIdent_sound _ _ _ hmi
    have hw2 : ∀ c ∈ r.takeWhile isWsRe, isWsRe c = true :=
      fun c hc => List.mem_takeWhile_imp hc
    have hrsplit : r = r.takeWhile isWsRe ++ r.dropWhile isWsRe :=
      (List.takeWhile_append_dropWhile isWsRe r).symm
    dsimp only at h
    unfold postOpMatch at h
    split at h
    next t heq =>
      by_cases htl : tailOk t = true
      · rw [if_pos htl] at h
        simp only [Option.some.injEq, Prod.mk.injEq] at h
        obtain ⟨rfl, rfl⟩ := h
        refine ⟨Or.inl rfl, hident, l.takeWhile isWsRe, r.takeWhile isWsRe, t,
          hw1, hw2, (tailOk_iff t).mp htl, ?_⟩
        conv_lhs => rw [hsplit]
        rw [hreq]
        conv_lhs => rw [hrsplit]
        rw [heq]
        simp
      · rw [if_neg htl] at h
        simp at h
    next t heq =>
      by_cases htl : tailOk t = true
      · rw [if_pos htl] at h
        simp only [Option.some.injEq, Prod.mk.injEq] at h
        obtain ⟨rfl, rfl⟩ := h
        refine ⟨Or.inr rfl, hident, l.takeWhile isWsRe, r.takeWhile isWsRe, t,
          hw1, hw2, (tailOk_iff t).mp htl, ?_⟩
        conv_lhs => rw [hsplit]
        rw [hreq]
        conv_lhs => rw [hrsplit]
        rw [heq]
        simp
      · rw [if_neg htl] at h
        simp at h
    next =>
      simp at h

theorem postMatch_complete (l op id : List Char) (hp : PostFormP l op id) :
    postMatch l = some (op, id) := by
  obtain ⟨hop, hident, w1, w2, t, hw1, hw2, ht, rfl⟩ := hp
  obtain ⟨c, r, hceq, hc⟩ := IsIdentP_head id hident
  have hboundary : sepSplit (w2 ++ op ++ t) = none ∧
      (∀ x, (w2 ++ op ++ t).head? = some x → isSegChar x = false) := by
    cases w2 with
    | cons d w2' =>
      have hd := hw1  -- placeholder, replaced below
      have hdw : isWsRe d = true := hw2 d (List.mem_cons_self d w2')
      have hfacts := ws_or_semi_facts d (Or.inl hdw)
      constructor
      · show sepSplit (d :: (w2' ++ op ++ t)) = none
        unfold sepSplit
        split
        · exact absurd (by injection ‹d :: (w2' ++ op ++ t) = '.' :: _›) hfacts.2.1
        · exact absurd (by injection ‹d :: (w2' ++ op ++ t) = '-' :: '>' :: _›) hfacts.2.2.1
        · exact absurd (by injection ‹d :: (w2' ++ op ++ t) = ':' :: ':' :: _›) hfacts.2.2.2.1
        · rfl
      · intro x hx
        have : d = x := by injection hx
        exact this ▸ hfacts.1
    | nil =>
      rcases hop with rfl | rfl
      · exact ⟨rfl, fun x hx => by
          have : '+' = x := by injection hx
          rw [← this]
          rfl⟩
      · exact ⟨rfl, fun x hx => by
          have : '-' = x := by injection hx
          rw [← this]
          rfl⟩
  have hdw1 : (w1 ++ id ++ w2 ++ op ++ t).dropWhile isWsRe = id ++ (w2 ++ op ++ t) := by
    rw [hceq, show w1 ++ (c :: r) ++ w2 ++ op ++ t = w1 ++ c :: (r ++ (w2 ++ op ++ t))
      by simp]
    rw [dropWhile_eager _ w1 c _ hw1 (segStart_not_ws c hc)]
    simp
  have hmi : matchIdent (id ++ (w2 ++ op ++ t)) = some (id, w2 ++ op ++ t) :=
    matchIdent_complete id _ hident hboundary.1 hboundary.2
  have hdw2 : (w2 ++ op ++ t).dropWhile isWsRe = op ++ t := by
    rcases hop with rfl | rfl
    · rw [show w2 ++ ['+', '+'] ++ t = w2 ++ '+' :: ('+' :: t) by simp]
      rw [dropWhile_eager _ w2 '+' _ hw2 (by decide)]
      simp
    · rw [show w2 ++ ['-', '-'] ++ t = w2 ++ '-' :: ('-' :: t) by simp]
      rw [dropWhile_eager _ w2 '-' _ hw2 (by decide)]
      simp
  unfold postMatch
  rw [hdw1, hmi]
  dsimp only
  rw [hdw2]
  rcases hop with rfl | rfl
  · show postOpMatch id ('+' :: '+' :: t) = some (['+', '+'], id)
    rw [postOpMatch, if_pos ((tailOk_iff t).mpr ht)]
  · show postOpMatch id ('-' :: '-' :: t) = some (['-', '-'], id)
    rw [postOpMatch.eq_2, if_pos ((tailOk_iff t).mpr ht)]

/-! ## Claim C3: parse_line implements exactly the two anchored forms -/

/-- C3: for every input line, `parse_line` returns exactly the command
the two whole-text-anchored forms prescribe for the comment-stripped
text -- the operator-first form maps `++`/`--`/`?` to
Increment/Decrement/Query, otherwise the operator-last form accepts
`++`/`--` only, and every other text yields `Nothing`; identifiers are
dot/arrow/double-colon separated `[A-Za-z_][A-Za-z0-9_]*` segments
returned verbatim.  In particular postfix `?` is not recognized:
`"foo?"` yields `Nothing`. -/
theorem C3_parse_line (line : String) :
    SpecParses (cleanChars line.data) (parse_line line) ∧
    parse_line "foo?" = ParsedLine.Nothing ∧
    parse_line "++foo" = ParsedLine.Increment "foo" ∧
    parse_line "foo++" = ParsedLine.Increment "foo" ∧
    parse_line "--foo" = ParsedLine.Decrement "foo" ∧
    parse_line "foo--" = ParsedLine.Decrement "foo" ∧
    parse_line "?foo" = ParsedLine.Query "foo" ∧
    parse_line "++Foo:Bar" = ParsedLine.Nothing ∧
    parse_line "++Foo..Bar" = ParsedLine.Nothing ∧
    parse_line "++Foo :: Bar" = ParsedLine.Nothing ∧
    parse_line "++Foo::Bar" = ParsedLine.Increment "Foo::Bar" := by
  refine ⟨?_, by decide, by decide, by decide, by decide, by decide, by decide,
    by decide, by decide, by decide, by decide⟩
  unfold parse_line matchForms
  cases hpre : preMatch (cleanChars line.data) with
  | some p =>
    obtain ⟨op, id⟩ := p
    dsimp only
    left
    exact ⟨op, id, preMatch_sound _ op id hpre, rfl⟩
  | none =>
    dsimp only
    cases hpost : postMatch (cleanChars line.data) with
    | some p =>
      obtain ⟨op, id⟩ := p
      dsimp only
      right
      left
      refine ⟨?_, op, id, postMatch_sound _ op id hpost, rfl⟩
      rintro ⟨op', id', hp⟩
      rw [preMatch_complete _ op' id' hp] at hpre
      exact Option.noConfusion hpre
    | none =>
      dsimp only
      right
      right
      refine ⟨?_, ?_, rfl⟩
      · rintro ⟨op', id', hp⟩
        rw [preMatch_complete _ op' id' hp] at hpre
        exact Option.noConfusion hpre
      · rintro ⟨op', id', hp⟩
        rw [postMatch_complete _ op' id' hp] at hpost
        exact Option.noConfusion hpost

/-! ## Claim C7: comments are stripped before matching -/

/-- C7: `parse_line` first strips block and line comments and only then
matches, so comments never contribute to the match even when they
contain operator-like text, and a command is still recognized when
comments sit between the operator and the identifier or inside the
identifier's separators. -/
theorem C7_comment_stripping (line : String) :
    parse_line line = matchForms (cleanChars line.data) ∧
    parse_line "/*x*/++/*x*/foo::bar/*x*/ //x" = ParsedLine.Increment "foo::bar" ∧
    parse_line "// ++empty" = ParsedLine.Nothing ∧
    parse_line "/* --empty */" = ParsedLine.Nothing ∧
    parse_line "+/* junk */+foo:/* junk */:bar // junk" = ParsedLine.Increment "foo::bar" := by
  exact ⟨rfl, by decide, by decide, by decide, by decide⟩

/-! ## The session tokenizer (`irc_client.rs`, `irc_split`)

Bytes are modelled as characters; `String::from_utf8_lossy` is the
identity on ASCII content and the tokenizer itself only inspects ASCII
whitespace and `:`. -/

/-- Model of `u8::is_ascii_whitespace`: space, tab, line feed, form
feed, carriage return (not vertical tab). -/
def isAsciiWs (c : Char) : Bool :=
  c.toNat = 32 || c.toNat = 9 || c.toNat = 10 || c.toNat = 12 || c.toNat = 13

/-- The scan step of the `irc_split` loop: the token before the first
ASCII-whitespace byte (possibly empty when the line starts with
whitespace) and the remainder beginning at that byte, or `none` when the
line holds no whitespace. -/
def findWsSplit (l : List Char) : Option (List Char × List Char) :=
  match l.dropWhile (fun c => !isAsciiWs c) with
  | [] => none
  | c :: r => some (l.takeWhile (fun c => !isAsciiWs c), c :: r)

/-- Model of the `irc_split` loop: at each whitespace the scanned token
is pushed (even when empty), the whitespace run is skipped, and a
remainder starting with `:` is pushed whole and ends the loop; when the
loop runs off the end, a final nonempty scan is pushed.  Fueled; each
round consumes at least one character past the whitespace, so
`fuel = length` is always enough. -/
def ircSplitF : Nat → List Char → List (List Char)
  | 0, _ => []
  | fuel + 1, l =>
    match findWsSplit l with
    | none => if l = [] then [] else [l]
    | some (tok, rest) =>
      let r2 := rest.dropWhile isAsciiWs
      tok :: (if r2 = [] then []
              else if r2.head? = some ':' then [r2]
              else ircSplitF fuel r2)

/-- Model of `irc_split` at its canonical fuel. -/
def irc_split (l : List Char) : List (List Char) := ircSplitF l.length l

theorem dropWhile_length {α : Type} (p : α → Bool) (l : List α) :
    (l.dropWhile p).length ≤ l.length := by
  induction l with
  | nil => simp [List.dropWhile]
  | cons a l ih =>
    rw [List.dropWhile_cons]
    split
    · simp only [List.length_cons]
      omega
    · simp

/-- The amended tokenization, written as a character-at-a-time scan: a
whitespace byte emits the pending token (empty at line start), the
whitespace run is skipped, a remainder starting with `:` after that run
is taken whole, and the end of the line emits a final nonempty pending
token. -/
def specTokGo (cur : List Char) : List Char → List (List Char)
  | [] => if cur = [] then [] else [cur.reverse]
  | c :: rest =>
    if isAsciiWs c then
      cur.reverse ::
        (if (rest.dropWhile isAsciiWs).head? = some ':' then [rest.dropWhile isAsciiWs]
         else if rest.dropWhile isAsciiWs = [] then []
         else specTokGo [] (rest.dropWhile isAsciiWs))
    else specTokGo (c :: cur) rest
termination_by l => l.length
decreasing_by
  · have := dropWhile_length isAsciiWs rest
    simp only [List.length_cons]
    omega
  · simp

/-- The amended tokenization of a whole line. -/
def specSplit (l : List Char) : List (List Char) := specTokGo [] l

theorem ircSplitF_specTokGo_nil (cur : List Char) (f : Nat)
    (hcur : ∀ c ∈ cur, isAsciiWs c = false) (hf : cur.reverse.length ≤ f) :
    ircSplitF f cur.reverse = specTokGo cur [] := by
  have hnone : findWsSplit cur.reverse = none := by
    unfold findWsSplit
    rw [List.dropWhile_eq_nil_iff.mpr]
    intro x hx
    rw [List.mem_reverse] at hx
    simp [hcur x hx]
  cases f with
  | zero =>
    have hcur0 : cur = [] := by
      simpa using hf
    subst hcur0
    rw [specTokGo]
    simp [ircSplitF]
  | succ f =>
    rw [ircSplitF, hnone]
    dsimp only
    rw [specTokGo]
    by_cases hc : cur = []
    · rw [if_pos (by simpa using hc), if_pos hc]
    · rw [if_neg (by simpa using hc), if_neg hc]

theorem ircSplitF_specTokGo (n : Nat) : ∀ (l : List Char), l.length ≤ n →
    ∀ (cur : List Char) (f : Nat), (∀ c ∈ cur, isAsciiWs c = false) →
    (cur.reverse ++ l).length ≤ f →
    ircSplitF f (cur.reverse ++ l) = specTokGo cur l := by
  induction n with
  | zero =>
    intro l hl cur f hcur hf
    have hl0 : l = [] := List.length_eq_zero.mp (Nat.le_zero.mp hl)
    subst hl0
    rw [List.append_nil]
    exact ircSplitF_specTokGo_nil cur f hcur (by simpa using hf)
  | succ n ih =>
    intro l hl cur f hcur hf
    cases l with
    | nil =>
      rw [List.append_nil]
      exact ircSplitF_specTokGo_nil cur f hcur (by simpa using hf)
    | cons c rest =>
      by_cases hws : isAsciiWs c = true
      · have hlen1 : 1 ≤ (cur.reverse ++ c :: rest).length := by
          simp only [List.length_append, List.length_reverse, List.length_cons]
          omega
        cases f with
        | zero =>
          simp only [List.length_append, List.length_reverse, List.length_cons,
            Nat.le_zero] at hf
          omega
        | succ f =>
          have hfind : findWsSplit (cur.reverse ++ c :: rest)
              = some (cur.reverse, c :: rest) := by
            unfold findWsSplit
            have ha : ∀ x ∈ cur.reverse, (fun c => !isAsciiWs c) x = true := by
              intro x hx
              rw [List.mem_reverse] at hx
              simp [hcur x hx]
            have hx : (fun c => !isAsciiWs c) c = false := by simp [hws]
            rw [dropWhile_eager _ _ _ _ ha hx, takeWhile_eager _ _ _ _ ha hx]
          rw [ircSplitF, hfind]
          dsimp only
          have hr2 : (c :: rest).dropWhile isAsciiWs = rest.dropWhile isAsciiWs := by
            rw [List.dropWhile_cons, if_pos hws]
          rw [hr2]
          rw [specTokGo, if_pos hws]
          by_cases hnil : rest.dropWhile isAsciiWs = []
          · rw [hnil]
            rw [if_pos rfl, if_neg (by simp), if_pos rfl]
          · by_cases hcolon : (rest.dropWhile isAsciiWs).head? = some ':'
            · rw [if_neg hnil, if_pos hcolon, if_pos hcolon]
            · rw [if_neg hnil, if_neg hcolon, if_neg hcolon, if_neg hnil]
              have hlen : (rest.dropWhile isAsciiWs).length ≤ n := by
                have h1 := dropWhile_length isAsciiWs rest
                simp only [List.length_cons] at hl
                omega
              have hfuel : (([] : List Char).reverse ++ rest.dropWhile isAsciiWs).length ≤ f := by
                have h1 := dropWhile_length isAsciiWs rest
                simp only [List.length_append, List.length_reverse, List.length_cons,
                  List.reverse_nil, List.nil_append] at hf ⊢
                omega
              have hres := ih (rest.dropWhile isAsciiWs) hlen [] f (by simp) hfuel
              simpa using hres
      · have hshape : cur.reverse ++ c :: rest = (c :: cur).reverse ++ rest := by
          simp
        rw [hshape]
        rw [specTokGo, if_neg hws]
        apply ih rest (by simp only [List.length_cons] at hl; omega) (c :: cur) f
        · intro x hx
          rcases List.mem_cons.mp hx with rfl | hx
          · simpa using hws
          · exact hcur x hx
        · rw [← hshape]
          exact hf

/-! ## Claim C8: tokenization of received lines -/

/-- C8 fails on the code at a concrete input: a line-initial token
starting with `:` does not absorb the remainder of the line -- the
colon rule only applies to a token that follows whitespace. -/
theorem C8_counterexample :
    irc_split ":a b".data = [":a".data, "b".data] ∧
    irc_split ":a b".data ≠ [":a b".data] := by
  constructor <;> decide

/-- C8 amended: `irc_split` tokenizes by scanning for ASCII whitespace:
each whitespace run ends the pending token (so a line-initial run yields
one empty token), a remainder that starts with `:` after a whitespace
run is absorbed verbatim as one final token, and the end of the line
emits a final nonempty pending token.  A line-initial `:` token is split
like any other token, and a trailing CR is ASCII whitespace, so it is
trimmed. -/
theorem C8_tokenization (l : List Char) : irc_split l = specSplit l := by
  unfold irc_split specSplit
  have h := ircSplitF_specTokGo l.length l le_rfl [] l.length (by simp) (by simp)
  simpa using h

/-! ## The keepalive state machine and line dispatch (`irc_client.rs`) -/

/-- Model of `PingState`. -/
inductive PingState where
  | Reset : PingState
  | Waiting : PingState
  | PingPending : PingState
deriving DecidableEq

/-- Model of the per-line dispatch in `process_lines`, returning the
messages actually transmitted on the socket and the new keepalive
sub-state.  The `PING` branch builds its `PONG` reply future with
`sock.write_all(..)`, but `process_lines` is not an `async fn` and the
future is discarded by `let _ =` without ever being polled, so no bytes
reach the socket; the transmitted-message list is therefore empty in
every branch.  A line whose second token is `PONG` moves the keepalive
sub-state to `Reset`. -/
def processLine (parts : List String) (st : PingState) : List String × PingState :=
  if 2 ≤ parts.length ∧ parts.getD 0 "" = "PING" then ([], st)
  else if 2 ≤ parts.length ∧ parts.getD 1 "" = "PONG" then ([], PingState.Reset)
  else ([], st)

/-- Modelled from the spec: the intended dispatch, in which a line whose
first token is `PING` with a target token present immediately transmits
`PONG <target>` terminated by CRLF.  This is what `process_lines` would
do if the write future were awaited. -/
def intendedProcessLine (parts : List String) (st : PingState) : List String × PingState :=
  if 2 ≤ parts.length ∧ parts.getD 0 "" = "PING" then
    (["PONG " ++ parts.getD 1 "" ++ "\r\n"], st)
  else if 2 ≤ parts.length ∧ parts.getD 1 "" = "PONG" then ([], PingState.Reset)
  else ([], st)

/-! ## Claim C6: the PONG reply to a PING probe -/

/-- C6 names intended behaviour the code does not have: on the line
`PING :rot` the tokenizer yields a `PING` command with a target, and the
intended dispatch transmits exactly `PONG :rot` with CRLF; the code's
dispatch transmits nothing at all (on this line and on every line),
because the `write_all` future is dropped without being awaited. -/
theorem C6_pong_dropped :
    (processLine ((irc_split "PING :rot".data).map String.mk) PingState.Waiting).1 = [] ∧
    (∀ parts st, (processLine parts st).1 = []) ∧
    (intendedProcessLine ((irc_split "PING :rot".data).map String.mk) PingState.Waiting).1
      = ["PONG :rot\r\n"] := by
  refine ⟨by decide, ?_, by decide⟩
  intro parts st
  unfold processLine
  split
  · rfl
  · split
    · rfl
    · rfl

/-! ## Claim C9: the Reset branch of the deadline arm is unreachable -/

/-- The events the select of `IrcClient::run` races: readable data (the
complete lines it contains, already tokenized), a closed or failed read
(which reconnects and therefore resets the keepalive sub-state), the
keepalive deadline, and the periodic store flush.  The shutdown arm
leaves the loop and is not a step. -/
inductive LoopEvent where
  | readData : List (List String) → LoopEvent
  | readClosed : LoopEvent
  | timerFire : LoopEvent
  | saveTick : LoopEvent

/-- The top-of-iteration normalization: a `Reset` sub-state re-arms the
idle deadline and becomes `Waiting` before the events are raced. -/
def topOfLoop (s : PingState) : PingState :=
  if s = PingState.Reset then PingState.Waiting else s

/-- The effect of one raced event on the keepalive sub-state; `none`
models the `unreachable!` branch of the deadline arm. -/
def handleEvent : PingState → LoopEvent → Option PingState
  | s, LoopEvent.readData lines =>
    some (lines.foldl (fun s parts => (processLine parts s).2) s)
  | _, LoopEvent.readClosed => some PingState.Reset
  | PingState.Reset, LoopEvent.timerFire => none
  | PingState.Waiting, LoopEvent.timerFire => some PingState.PingPending
  | PingState.PingPending, LoopEvent.timerFire => some PingState.Reset
  | s, LoopEvent.saveTick => some s

/-- The keepalive sub-states reachable at the select point: the loop is
entered with `Reset` normalized at the top of the first iteration, and
every later iteration normalizes whatever state the previous event
handler produced. -/
inductive AtSelect : PingState → Prop where
  | init : AtSelect (topOfLoop PingState.Reset)
  | step (s s' : PingState) (e : LoopEvent) :
      AtSelect s → handleEvent s e = some s' → AtSelect (topOfLoop s')

theorem topOfLoop_ne_reset (s : PingState) : topOfLoop s ≠ PingState.Reset := by
  unfold topOfLoop
  split
  · intro h
    exact PingState.noConfusion h
  · assumption

/-- C9: in every reachable state of the event loop, when the keepalive
deadline fires the sub-state is `Waiting` or `PingPending`, never
`Reset` -- the top-of-iteration step turns `Reset` into `Waiting` before
the race -- so the `Reset` branch of the deadline arm, which aborts the
process, is unreachable. -/
theorem C9_reset_unreachable (s : PingState) (h : AtSelect s) :
    s ≠ PingState.Reset ∧ (s = PingState.Waiting ∨ s = PingState.PingPending) ∧
    (handleEvent s LoopEvent.timerFire).isSome = true := by
  have hne : s ≠ PingState.Reset := by
    cases h with
    | init => exact topOfLoop_ne_reset _
    | step s0 s' e _ _ => exact topOfLoop_ne_reset _
  refine ⟨hne, ?_, ?_⟩
  · cases s with
    | Reset => exact absurd rfl hne
    | Waiting => exact Or.inl rfl
    | PingPending => exact Or.inr rfl
  · cases s with
    | Reset => exact absurd rfl hne
    | Waiting => rfl
    | PingPending => rfl

/-- Witness for C9: the initial select point is in state `Waiting`. -/
theorem C9_reset_unreachable_witness :
    (PingState.Waiting ≠ PingState.Reset ∧
      (PingState.Waiting = PingState.Waiting ∨ PingState.Waiting = PingState.PingPending) ∧
      (handleEvent PingState.Waiting LoopEvent.timerFire).isSome = true) :=
  C9_reset_unreachable PingState.Waiting (by exact AtSelect.init)
